import Mathlib

/-!
A verification development for the scorecard-review dashboard's data
normalization and reconciliation pipeline (`dashboard.py` + `mappings.py`).

The pipeline is shallowly embedded: pandas cells are `Option String`
(`none` models a missing/NaN cell), Python floats are modelled by `ℚ`
(every score literal appearing in the data model is decimal, so rational
arithmetic agrees with the float computations the claims exercise),
and `pd.to_datetime` is abstracted by a date-parsing parameter
`String → Option Int` (timestamps as integers, `none` for `NaT`).
Python `str.strip`/`lower`/`upper` are modelled by the ASCII
`String.trim`/`toLower`/`toUpper`; the inputs of interest are ASCII
apart from dash code points that those functions leave unchanged.
-/

namespace Dashboard

/-! ## Static tables (`mappings.py`) -/

/-- `account_to_vertical` from `mappings.py`: the fixed roster, in
source order (Python dicts preserve insertion order). -/
def account_to_vertical : List (String × String) := [
  ("Delta Air Lines", "Aviation"),
  ("Ford Motor Company", "Automotive"),
  ("General Motors", "Automotive"),
  ("Tesla Inc.", "Automotive"),
  ("Honda Motor Company", "Automotive"),
  ("Detroit Diesel (DDC)", "Automotive"),
  ("Lockheed Martin", "Manufacturing"),
  ("Boeing Company", "Manufacturing"),
  ("Northrop Grumman", "Manufacturing"),
  ("Hewlett-Packard", "Manufacturing"),
  ("Textron Aviation", "Manufacturing"),
  ("Spirit Aerosystems", "Manufacturing"),
  ("United Technologies", "Manufacturing"),
  ("Mars", "Manufacturing"),
  ("Ball Corp", "Manufacturing"),
  ("Procter & Gamble Company", "Manufacturing"),
  ("GE Healthcare", "Manufacturing"),
  ("General Electric", "Manufacturing"),
  ("General Dynamics", "Manufacturing"),
  ("Nestle", "Manufacturing"),
  ("Westinghouse", "Manufacturing"),
  ("Micron Tech", "Manufacturing"),
  ("Microsoft", "Technology"),
  ("Meta", "Technology"),
  ("Intel", "Technology"),
  ("Amazon", "Technology"),
  ("Amazon Office", "Technology"),
  ("Google", "Technology"),
  ("NVIDIA", "Technology"),
  ("Adobe Systems", "Technology"),
  ("LinkedIn", "Technology"),
  ("LAM Research", "Technology"),
  ("IBM", "Technology"),
  ("Uber", "Technology"),
  ("Merck", "Life Science"),
  ("Abbott Labs", "Life Science"),
  ("Amgen", "Life Science"),
  ("Eli Lilly", "Life Science"),
  ("Sanofi", "Life Science"),
  ("Gilead Sciences", "Life Science"),
  ("Takeda Pharmaceutical", "Life Science"),
  ("Lonza Biologics", "Life Science"),
  ("Bristol Myers Squibb", "Life Science"),
  ("Bayer", "Life Science"),
  ("Medtronic", "Life Science"),
  ("Biogen", "Life Science"),
  ("Boehringer Ingelheim", "Life Science"),
  ("Novartis", "Life Science"),
  ("Johnson & Johnson", "Life Science"),
  ("Johnson & Johnson - Puerto Rico", "Life Science"),
  ("AbbVie", "Life Science"),
  ("Wells Fargo", "Finance"),
  ("Charles Schwab", "Finance"),
  ("Deutsche Bank", "Finance"),
  ("CIGNA", "Finance"),
  ("USAA", "Finance"),
  ("Nike", "Distribution"),
  ("Great American Ball Park", "R&D / Education / Other")]

/-- `account_name_variations` from `mappings.py`: raw label → canonical
name, with `none` as the exclusion sentinel (Python `None`, "Omnicom"). -/
def account_name_variations : List (String × Option String) := [
  ("Abbvie", some "AbbVie"), ("abbvie", some "AbbVie"),
  ("Merck Sodexo", some "Merck"), ("merck sodexo", some "Merck"),
  ("Ball Corp", some "Ball Corp"), ("ball corp", some "Ball Corp"),
  ("Cigna", some "CIGNA"), ("cigna", some "CIGNA"),
  ("GM Milford", some "General Motors"), ("gm milford", some "General Motors"),
  ("Grant frazier", some "Meta"), ("grant frazier", some "Meta"),
  ("Micron (C&W)", some "Micron Tech"), ("micron (c&w)", some "Micron Tech"),
  ("Great American Ballpark", some "Great American Ball Park"),
  ("great american ballpark", some "Great American Ball Park"),
  ("Lam Research", some "LAM Research"), ("lam research", some "LAM Research"),
  ("P&G(JLL)", some "Procter & Gamble Company"), ("p&g(jll)", some "Procter & Gamble Company"),
  ("P&G", some "Procter & Gamble Company"), ("p&g", some "Procter & Gamble Company"),
  ("Microsoft Puget Sound", some "Microsoft"), ("microsoft puget sound", some "Microsoft"),
  ("Boeing", some "Boeing Company"), ("boeing", some "Boeing Company"),
  ("General Dynamics", some "General Dynamics"), ("general dynamics", some "General Dynamics"),
  ("JLL Northrop Grumman", some "Northrop Grumman"),
  ("Wells Fargo-JLL", some "Wells Fargo"), ("wells fargo-jll", some "Wells Fargo"),
  ("Abbottt", some "Abbott Labs"), ("abbottt", some "Abbott Labs"),
  ("Abbott", some "Abbott Labs"), ("abbott", some "Abbott Labs"),
  ("Johnson & Johnson JLL", some "Johnson & Johnson"),
  ("johnson & johnson jll", some "Johnson & Johnson"),
  ("Omnicom", none),
  ("Nike/DHL", some "Nike"), ("nike/dhl", some "Nike"),
  ("Nike/GXO Relay", some "Nike"), ("Nike/GXO Relay (California)", some "Nike"),
  ("nike/gxo relay", some "Nike"),
  ("Nike/GXO Connect", some "Nike"), ("Nike/GXO  Connect", some "Nike"),
  ("nike/gxo connect", some "Nike"),
  ("Nike/NALC", some "Nike"), ("nike/nalc", some "Nike"),
  ("Nike/Adapt", some "Nike"), ("nike/adapt", some "Nike")]

/-- The roster's account names, in order. -/
def rosterNames : List String := account_to_vertical.map (·.1)

/-! ## Python string primitives

The pipeline's inputs are ASCII apart from dash/quote code points that
`strip`/`lower`/`upper` leave unchanged, so the ASCII versions below
agree with Python's on everything in scope.  They are defined on
`List Char` so that every theorem can be evaluated by `decide`. -/

/-- Python `\s` (and the whitespace stripped by `str.strip`), ASCII part. -/
def isSpaceChar (c : Char) : Bool :=
  c = ' ' || c = '\t' || c = '\n' || c = '\r' || c = '\x0b' || c = '\x0c'

/-- Python `str.strip()`. -/
def pyStrip (s : String) : String :=
  ⟨((s.data.dropWhile isSpaceChar).reverse.dropWhile isSpaceChar).reverse⟩

/-- ASCII lower-casing of one character (Python `str.lower`). -/
def charLower (c : Char) : Char :=
  if 'A' ≤ c ∧ c ≤ 'Z' then Char.ofNat (c.toNat + 32) else c

/-- ASCII upper-casing of one character (Python `str.upper`). -/
def charUpper (c : Char) : Char :=
  if 'a' ≤ c ∧ c ≤ 'z' then Char.ofNat (c.toNat - 32) else c

/-- Python `str.lower()`. -/
def pyLower (s : String) : String := ⟨s.data.map charLower⟩

/-- Python `str.upper()`. -/
def pyUpper (s : String) : String := ⟨s.data.map charUpper⟩

/-- Lookup in the variant table (first match, as in a Python dict):
`some none` means the key is mapped to the exclusion sentinel,
`some (some t)` means the key is mapped to canonical name `t`,
`none` means the key is absent. -/
def lookupVariation (s : String) : Option (Option String) :=
  (account_name_variations.find? (fun p => p.1 = s)).map (·.2)

/-- Vertical of a normalized account name:
`df['Account_Normalized'].map(account_to_vertical).fillna('Other')`. -/
def verticalOf (nm : String) : String :=
  match account_to_vertical.find? (fun p => p.1 = nm) with
  | some p => p.2
  | none => "Other"

/-! ## Text sanitizer (`clean_text`, dashboard.py lines 69-94) -/

/-- A pandas cell as `clean_text` sees it: missing (`pd.isna`), a string,
or a non-text value (modelled by a rational, e.g. a numeric cell). -/
inductive Cell where
  | na : Cell
  | str : String → Cell
  | num : ℚ → Cell
deriving DecidableEq

/-- The apostrophe character (written via its code point to keep the
source free of quote-escape noise). -/
def apos : Char := Char.ofNat 39

/-- The `replacements` table of `clean_text`, in source order.  Every key
and every value is a single character, so each `str.replace` step is a
character-by-character substitution. -/
def replacements : List (Char × Char) := [
  ('�', apos),
  ('\x92', apos),
  ('\x93', '"'),
  ('\x94', '"'),
  ('\x96', '–'),
  ('\x97', '—'),
  ('\x91', apos),
  ('‘', apos),
  ('’', apos),
  ('“', '"'),
  ('”', '"'),
  ('–', '–'),
  ('—', '—')]

/-- One single-character substitution pass (`text.replace(old, new)` with
one-character `old`/`new`). -/
def substChar (p : Char × Char) (c : Char) : Char :=
  if c = p.1 then p.2 else c

/-- The character-level composition of all thirteen substitution passes,
applied in source order. -/
def cleanChar (c : Char) : Char :=
  replacements.foldl (fun c p => substChar p c) c

/-- The loop body of `clean_text` on an actual string: each `replacements`
entry is applied to the whole text in order. -/
def cleanString (s : String) : String :=
  ⟨replacements.foldl (fun t p => t.map (substChar p)) s.data⟩

/-- `clean_text`: non-text and missing values pass through unchanged;
strings get the substitution passes. -/
def clean_text (v : Cell) : Cell :=
  match v with
  | Cell.na => Cell.na
  | Cell.num q => Cell.num q
  | Cell.str s => Cell.str (cleanString s)

/-! ## Account resolver (`normalize_account_name`, lines 215-240) -/

/-- `normalize_account_name`: `None` input → `none` (dropped); a label
mapped to the exclusion sentinel → `none`; a variant-table hit → its
canonical name; an exact roster hit → itself; a case-insensitive roster
hit → the roster's casing (first match in roster order); otherwise the
trimmed label unchanged. -/
def normalize_account_name (v : Option String) : Option String :=
  match v with
  | none => none
  | some a =>
    let s := pyStrip a
    match lookupVariation s with
    | some none => none
    | some (some t) => some t
    | none =>
      if (account_to_vertical.find? (fun p => p.1 = s)).isSome then some s
      else
        match account_to_vertical.find? (fun p => pyLower p.1 = pyLower s) with
        | some p => some p.1
        | none => some s

/-! ## Score parser (`parse_score`, lines 331-387)

The regular-expression patterns are embedded as deterministic matchers.
For the token shapes that occur (`\d+\.?\d*` followed by whitespace, a
slash, or nothing; optional literal groups followed by a token that can
never match the group's first character), greedy matching without
backtracking agrees with Python's leftmost-then-greedy search, so each
matcher below tries one deterministic parse per start position and
`searchAt` scans start positions left to right. -/

/-! Rational arithmetic for the model.  The `ℚ` operations of the ambient
library are deliberately opaque to evaluation, so the model computes
through `mkRat`; the `qAdd_eq_add`-style lemmas below identify these with
the ordinary `ℚ` operations, which the theorem statements use. -/

/-- Executable addition on `ℚ`. -/
def qAdd (a b : ℚ) : ℚ := mkRat (a.num * b.den + b.num * a.den) (a.den * b.den)

/-- Executable multiplication of a `ℚ` by an integer. -/
def qMulInt (k : ℤ) (a : ℚ) : ℚ := mkRat (k * a.num) a.den

/-- Executable division of a `ℚ` by a natural number. -/
def qDivNat (a : ℚ) (n : ℕ) : ℚ := mkRat a.num (a.den * n)

/-- Executable sum of a list of `ℚ` (Python `sum`: left fold from 0). -/
def qSum (l : List ℚ) : ℚ := l.foldl qAdd 0

/-- Value of a digit string as a natural number. -/
def digitsVal (l : List Char) : ℕ :=
  l.foldl (fun a c => a * 10 + (c.toNat - '0'.toNat)) 0

/-- Python `float(s)` on the decimal forms the pipeline meets: optional
surrounding whitespace, optional sign, then `digits`, `digits.digits`,
`digits.` or `.digits`.  (Exponents, `inf`/`nan` and `_` separators never
occur in the scorecard data and are not modelled.)  The value
`±(ip + 0.fp)` is assembled as one exact fraction. -/
def parsePyFloat? (s : String) : Option ℚ :=
  let l := (s.data.dropWhile isSpaceChar).reverse.dropWhile isSpaceChar |>.reverse
  let signed : ℤ × List Char :=
    match l with
    | '-' :: r => (-1, r)
    | '+' :: r => (1, r)
    | _ => (1, l)
  let sign := signed.1
  let l := signed.2
  let ip := l.takeWhile Char.isDigit
  let rest := l.drop ip.length
  match rest with
  | [] => if ip.isEmpty then none else some (mkRat (sign * digitsVal ip) 1)
  | '.' :: fp =>
    if fp.all Char.isDigit ∧ ¬(ip.isEmpty ∧ fp.isEmpty) then
      some (mkRat (sign * (digitsVal ip * 10 ^ fp.length + digitsVal fp)) (10 ^ fp.length))
    else none
  | _ => none

/-- Consume the literal character sequence `lit`, returning the rest. -/
def eatLit : List Char → List Char → Option (List Char)
  | [], l => some l
  | _ :: _, [] => none
  | c :: cs, d :: ds => if c = d then eatLit cs ds else none

/-- Consume one or more whitespace characters (`\s+`). -/
def eatSpaces1 (l : List Char) : Option (List Char) :=
  let sp := l.takeWhile isSpaceChar
  if sp.isEmpty then none else some (l.drop sp.length)

/-- Greedy match of the number token `\d+\.?\d*`, returning the captured
characters and the rest of the input. -/
def matchNumber (l : List Char) : Option (List Char × List Char) :=
  let d1 := l.takeWhile Char.isDigit
  if d1.isEmpty then none
  else
    let r1 := l.drop d1.length
    match r1 with
    | '.' :: r2 =>
      let d2 := r2.takeWhile Char.isDigit
      some (d1 ++ '.' :: d2, r2.drop d2.length)
    | _ => some (d1, r1)

/-- Try an optional group: keep the group's parse if it succeeds in full,
otherwise skip the group (its first character can never begin the token
that follows, so no further backtracking is needed). -/
def optGroup (f : List Char → Option (List Char)) (l : List Char) : List Char :=
  (f l).getD l

/-- `re.search`: try the matcher at each start position, left to right. -/
def searchAt (f : List Char → Option (List Char)) : List Char → Option (List Char)
  | [] => none
  | c :: cs =>
    match f (c :: cs) with
    | some cap => some cap
    | none => searchAt f cs

/-- Pattern `SBM\s+(\d+\.?\d*)` (matched against the lowercased text, so
the uppercase literal can in fact never fire). -/
def matchSBMAt (l : List Char) : Option (List Char) :=
  (eatLit "SBM".data l).bind fun r1 =>
  (eatSpaces1 r1).bind fun r2 =>
  (matchNumber r2).map (·.1)

/-- Pattern `scored?\s+(?:a\s+)?(\d+\.?\d*)`. -/
def matchScoredAt (l : List Char) : Option (List Char) :=
  (eatLit "score".data l).bind fun r1 =>
  let r2 := match r1 with | 'd' :: t => t | _ => r1
  (eatSpaces1 r2).bind fun r3 =>
  let r4 := optGroup (fun t => match t with | 'a' :: u => eatSpaces1 u | _ => none) r3
  (matchNumber r4).map (·.1)

/-- Pattern `(\d+\.?\d*)\s+out\s+of`. -/
def matchOutOfAt (l : List Char) : Option (List Char) :=
  (matchNumber l).bind fun pr =>
  (eatSpaces1 pr.2).bind fun r2 =>
  (eatLit "out".data r2).bind fun r3 =>
  (eatSpaces1 r3).bind fun r4 =>
  (eatLit "of".data r4).map fun _ => pr.1

/-- Pattern `score[d]?\s+(?:of\s+)?(\d+\.?\d*)`. -/
def matchScoreOfAt (l : List Char) : Option (List Char) :=
  (eatLit "score".data l).bind fun r1 =>
  let r2 := match r1 with | 'd' :: t => t | _ => r1
  (eatSpaces1 r2).bind fun r3 =>
  let r4 := optGroup (fun t => (eatLit "of".data t).bind eatSpaces1) r3
  (matchNumber r4).map (·.1)

/-- Pattern `(\d+\.?\d*)/5`. -/
def matchSlash5At (l : List Char) : Option (List Char) :=
  (matchNumber l).bind fun pr =>
  match pr.2 with
  | '/' :: '5' :: _ => some pr.1
  | _ => none

/-- Pattern `all\s+(?:sites?\s+)?(?:scored?\s+)?(?:a\s+)?(\d+\.?\d*)`. -/
def matchAllAt (l : List Char) : Option (List Char) :=
  (eatLit "all".data l).bind fun r1 =>
  (eatSpaces1 r1).bind fun r2 =>
  let r3 := optGroup (fun t =>
    (eatLit "site".data t).bind fun u =>
    let u2 := match u with | 's' :: v => v | _ => u
    eatSpaces1 u2) r2
  let r4 := optGroup (fun t =>
    (eatLit "score".data t).bind fun u =>
    let u2 := match u with | 'd' :: v => v | _ => u
    eatSpaces1 u2) r3
  let r5 := optGroup (fun t => match t with | 'a' :: u => eatSpaces1 u | _ => none) r4
  (matchNumber r5).map (·.1)

/-- The `score_patterns` list, in source order. -/
def scorePatterns : List (List Char → Option (List Char)) :=
  [matchSBMAt, matchScoredAt, matchOutOfAt, matchScoreOfAt, matchSlash5At, matchAllAt]

/-- One iteration of the pattern loop: search, parse the capture as a
float, keep it only if it lies in [0, 5] (otherwise the loop moves on). -/
def tryPattern (m : List Char → Option (List Char)) (low : List Char) : Option ℚ :=
  match searchAt m low with
  | some cap =>
    match parsePyFloat? ⟨cap⟩ with
    | some q => if 0 ≤ q ∧ q ≤ 5 then some q else none
    | none => none
  | none => none

/-- The pattern loop over `score_str.lower()`: first in-range capture wins. -/
def patternScore (l : List Char) : Option ℚ :=
  scorePatterns.findSome? (fun m => tryPattern m (l.map charLower))

/- `re.findall(r'(\d+\.?\d*)', s)`: non-overlapping, leftmost, greedy,
implemented as a scanner.  `numIntPart` is inside the `\d+` of a token,
`numFracPart` is past the optional dot; a non-digit character can never
begin a token, so scanning resumes right after it. -/
mutual

/-- Scanner start state for `re.findall` of the number token. -/
def findallNumbers : List Char → List (List Char)
  | [] => []
  | c :: cs => if c.isDigit then numIntPart [c] cs else findallNumbers cs

def numIntPart (acc : List Char) : List Char → List (List Char)
  | [] => [acc.reverse]
  | c :: cs =>
    if c.isDigit then numIntPart (c :: acc) cs
    else if c = '.' then numFracPart ('.' :: acc) cs
    else acc.reverse :: findallNumbers cs

def numFracPart (acc : List Char) : List Char → List (List Char)
  | [] => [acc.reverse]
  | c :: cs =>
    if c.isDigit then numFracPart (c :: acc) cs
    else acc.reverse :: findallNumbers cs

end

/-- The final fallback: every in-range numeric substring, averaged. -/
def fallbackMean (l : List Char) : Option ℚ :=
  let nums := (findallNumbers l).filterMap (fun cap => parsePyFloat? ⟨cap⟩)
  let valid := nums.filter (fun q => decide (0 ≤ q ∧ q ≤ 5))
  if valid.isEmpty then none else some (qDivNat (qSum valid) valid.length)

/-- The slash branch (lines 348-353): for text containing `/`, the float
parse of everything before the first slash (`score_str.split('/')[0]`). -/
def slashNumerator (s : String) : Option ℚ :=
  if s.data.contains '/' then parsePyFloat? ⟨s.data.takeWhile (· ≠ '/')⟩
  else none

/-- `parse_score` (lines 331-387): missing or "N/A" → absent; directly
parseable float → itself (unclamped); slash → left-hand numerator
(unclamped); else the pattern loop; else the in-range average; else
absent. -/
def parse_score (v : Option String) : Option ℚ :=
  match v with
  | none => none
  | some raw =>
    let s := pyStrip raw
    if pyUpper s = "N/A" then none
    else
      match parsePyFloat? s with
      | some q => some q
      | none =>
        match slashNumerator s with
        | some q => some q
        | none =>
          match patternScore s.data with
          | some q => some q
          | none => fallbackMean s.data

/-! ## Schema reconciler (`process_data`, lines 243-452)

A raw CSV row, restricted to the logical fields the pipeline consumes.
Both column sets (primary/"original" and continuation/"new", the latter
suffixed `1` in the CSV) are modelled as present, as they are in the
dual-schema exports the reconciler exists for; a missing cell is `none`.
`idNum` is the numeric `Id` column. -/
structure RawRow where
  idNum : Option ℤ := none
  nameOrig : Option String := none
  nameNew : Option String := none
  scoreOrig : Option String := none
  scoreNew : Option String := none
  dateOrig : Option String := none
  dateNew : Option String := none
  completionTime : Option String := none
  reviewerName : Option String := none
  attendeesOrig : Option String := none
  attendeesNew : Option String := none
  summaryOrig : Option String := none
  summaryNew : Option String := none
  feedbackOrig : Option String := none
  feedbackNew : Option String := none
  actionOrig : Option String := none
  actionNew : Option String := none
  nextOrig : Option String := none
  nextNew : Option String := none
  whoIsYourFM : Option String := none
deriving DecidableEq

/-- Python truthiness test `pd.notna(v) and str(v).strip()`. -/
def isNonBlank (v : Option String) : Bool :=
  match v with
  | none => false
  | some s => pyStrip s ≠ ""

/-- `get_account_name` (lines 264-272): December always uses the
continuation column; other months use it iff it is non-blank. -/
def getAccountName (isDec : Bool) (r : RawRow) : Option String :=
  if isDec then r.nameNew
  else if isNonBlank r.nameNew then r.nameNew
  else r.nameOrig

/-- `get_column_value` (lines 274-290): the column-set choice for every
field of a row is driven by the row's continuation account-name cell
(December: always the continuation set). -/
def getColumnValue (isDec : Bool) (r : RawRow) (origVal newVal : Option String) :
    Option String :=
  if isDec then newVal
  else if isNonBlank r.nameNew then newVal
  else origVal

/-- `get_unified_column` (lines 405-410): blank or missing unified values
become the default `""`; other values are stripped. -/
def getUnifiedColumn (isDec : Bool) (r : RawRow) (origVal newVal : Option String) :
    String :=
  match getColumnValue isDec r origVal newVal with
  | none => ""
  | some s => if pyStrip s = "" then "" else pyStrip s

/-- The per-field fallback rule in the words of the specification ("use
the continuation column if it is non-missing and non-blank after
trimming, else fall back to the primary column"), for comparison with
`getColumnValue`. -/
def specFieldValue (origVal newVal : Option String) : Option String :=
  if isNonBlank newVal then newVal else origVal

/-- Python `ifm.replace('(None)', '')`: delete every occurrence of the
literal token, left to right. -/
def removeNoneToken : List Char → List Char
  | '(' :: 'N' :: 'o' :: 'n' :: 'e' :: ')' :: rest => removeNoneToken rest
  | c :: cs => c :: removeNoneToken cs
  | [] => []

/-- `create_account_identifier` (lines 310-321): in December, a populated
IFM field (after deleting `(None)` and stripping) decorates the account
key. -/
def createAccountIdentifier (isDec : Bool) (base ifm : String) : String :=
  if isDec ∧ ifm ≠ "" then
    let ifmC := pyStrip ⟨removeNoneToken ifm.data⟩
    if ifmC ≠ "" then base ++ " (" ++ ifmC ++ ")" else base
  else base

/-- A processed (resolved) review row: one row of the dataframe returned
by `process_data`, restricted to the columns the aggregator reads. -/
structure Row where
  accountName : Option String
  accountNormalized : String
  ifm : String
  identifier : String
  vertical : String
  score : Option ℚ
  scoreRawDisp : String
  reviewDate : Option ℤ
  completionDate : Option ℤ
  reviewer : Option String
  summary : String
  feedback : String
  actionItems : String
  attendees : String
  nextReview : String
deriving DecidableEq

/-- Resolution of one raw row (the row-wise part of `process_data`):
`none` when the account label is missing or mapped to the exclusion
sentinel (the row is dropped by the `notna` filter on
`Account_Normalized`, line 299).  `parseDate` abstracts
`pd.to_datetime(..., errors='coerce')`. -/
def toRow (isDec : Bool) (parseDate : String → Option ℤ) (r : RawRow) : Option Row :=
  let nameU := getAccountName isDec r
  match normalize_account_name nameU with
  | none => none
  | some nm =>
    let ifm := match r.whoIsYourFM with
      | none => ""
      | some s => pyStrip s
    some {
      accountName := nameU,
      accountNormalized := nm,
      ifm := ifm,
      identifier := createAccountIdentifier isDec nm ifm,
      vertical := verticalOf nm,
      score := parse_score (getColumnValue isDec r r.scoreOrig r.scoreNew),
      scoreRawDisp := getUnifiedColumn isDec r r.scoreOrig r.scoreNew,
      reviewDate := (getColumnValue isDec r r.dateOrig r.dateNew).bind parseDate,
      completionDate := r.completionTime.bind parseDate,
      reviewer := r.reviewerName,
      summary := getUnifiedColumn isDec r r.summaryOrig r.summaryNew,
      feedback := getUnifiedColumn isDec r r.feedbackOrig r.feedbackNew,
      actionItems := getUnifiedColumn isDec r r.actionOrig r.actionNew,
      attendees := getUnifiedColumn isDec r r.attendeesOrig r.attendeesNew,
      nextReview := getUnifiedColumn isDec r r.nextOrig r.nextNew }

/-- `process_data` (lines 243-452): the December cohort is pre-filtered
to `Id >= 62` (a missing `Id` compares false, as in pandas); every
surviving raw row is resolved, and rows whose account resolves to `none`
are dropped. -/
def processData (isDec : Bool) (parseDate : String → Option ℤ) (df : List RawRow) :
    List Row :=
  let df1 := if isDec then
      df.filter (fun r => match r.idNum with
        | some i => decide (62 ≤ i)
        | none => false)
    else df
  df1.filterMap (toRow isDec parseDate)

/-- A raw row whose (unified) account label is mapped to the exclusion
sentinel in the variant table. -/
def isExcludedRow (isDec : Bool) (r : RawRow) : Bool :=
  match getAccountName isDec r with
  | none => false
  | some a => lookupVariation (pyStrip a) == some none

/-! ## Review aggregator (`get_all_accounts_with_data`, lines 531-698) -/

/-- The fixed multi-entry merge list (line 536). -/
def mergeAccountsList : List String := ["Gilead Sciences", "Nike", "General Motors"]

/-- An account record (one value of the `accounts_data` dictionary).
The detail fields are `Option`-valued because the "no data" records do
not carry them at all. -/
structure Record where
  vertical : String
  hasData : Bool
  score : Option ℚ
  date : Option ℤ
  completionDate : Option ℤ
  responseCount : ℕ
  director : Option String := none
  summary : Option String := none
  feedback : Option String := none
  actionItems : Option String := none
  attendees : Option String := none
  ifm : Option String := none
deriving DecidableEq

/-- The "no data" record (lines 541-548 / 607-614 / 661-668). -/
def noDataRecord (vert : String) : Record :=
  { vertical := vert, hasData := false, score := none, date := none,
    completionDate := none, responseCount := 0 }

/-- Python-dict insertion: replace the value at an existing key in place,
append otherwise. -/
def dinsert (k : String) (v : Record) :
    List (String × Record) → List (String × Record)
  | [] => [(k, v)]
  | p :: rest => if p.1 = k then (k, v) :: rest else p :: dinsert k v rest

/-- `Series.unique()`: distinct values in order of first occurrence. -/
def uniquesFirst (l : List String) : List String :=
  go [] l
where
  /-- Worker carrying the set of values already seen. -/
  go (seen : List String) : List String → List String
    | [] => []
    | x :: xs => if x ∈ seen then go seen xs else x :: go (x :: seen) xs

/-- `Series.idxmax()` on the completion-date column: the first row
holding the maximum completion date, missing dates skipped.  `none`
marks exactly the inputs on which pandas raises (an empty group, or a
group whose completion dates are all missing); the callers below
propagate that failure, so a load that hits it produces no mapping. -/
def latestRow : List Row → Option Row
  | [] => none
  | r :: rs =>
    match r.completionDate with
    | none => latestRow rs
    | some t =>
      match latestRow rs with
      | none => some r
      | some b =>
        match b.completionDate with
        | some t' => if t' ≤ t then some r else some b
        | none => some r

/-- Sort order of `sort_values('Completion_Date', ascending=False)`:
later completions first, missing completions last. -/
def cmpRows (a b : Row) : Bool :=
  match a.completionDate, b.completionDate with
  | some x, some y => y ≤ x
  | some _, none => true
  | none, some _ => false
  | none, none => true

/-- Insertion into a list sorted by `cmpRows`. -/
def insertSorted (a : Row) : List Row → List Row
  | [] => [a]
  | b :: bs => if cmpRows a b then a :: b :: bs else b :: insertSorted a bs

/-- The completion-descending sort used by `merge_multiple_reviews`
(tie order among equal completion dates is unspecified in the source:
pandas' default sort is not stable). -/
def sortByCompletionDesc (g : List Row) : List Row :=
  g.foldr insertSorted []

/-- `Series.max()`: maximum of the present values, `none` if all missing. -/
def maxOption (l : List (Option ℤ)) : Option ℤ :=
  l.foldl (fun acc o =>
    match acc, o with
    | none, o => o
    | some a, none => some a
    | some a, some b => some (max a b)) none

/-- Rendering of a date cell inside merged text (`f"({entry['date']})"`;
the exact timestamp formatting is irrelevant to every claim). -/
def dateText (o : Option ℤ) : String :=
  match o with
  | some t => toString t
  | none => "NaT"

/-- Rendering of a score inside merged text (`f"Score: {score}"`; the
float formatting is simplified to `num/den`, irrelevant to every claim). -/
def scoreText (o : Option ℚ) : String :=
  match o with
  | some q => "Score: " ++ toString q.num ++ "/" ++ toString q.den
  | none => "Score: N/A"

/-- The displayed name of one merged entry (`row.get('Account_Name')`;
a missing cell prints as `nan` in Python). -/
def entryName (r : Row) : String := r.accountName.getD "nan"

/-- The numbered "Reviews Combined" summary text (lines 500-503). -/
def mergedSummaryText (sorted : List Row) : String :=
  let body := (List.enumFrom 1 sorted).foldl (fun acc p =>
    acc ++ "**" ++ toString p.1 ++ ". " ++ entryName p.2 ++ "** (" ++
      dateText p.2.reviewDate ++ ") - " ++ scoreText p.2.score ++ "\n\n" ++
      p.2.summary ++ "\n\n---\n\n") ""
  "**" ++ toString sorted.length ++ " Reviews Combined:**\n\n" ++ body

/-- The merged feedback text (lines 506-508). -/
def mergedFeedbackText (sorted : List Row) : String :=
  let body := sorted.foldl (fun acc r =>
    acc ++ "**" ++ entryName r ++ ":**\n" ++ r.feedback ++ "\n\n---\n\n") ""
  "**Feedback from " ++ toString sorted.length ++ " Reviews:**\n\n" ++ body

/-- The merged action-items text (lines 511-513). -/
def mergedActionText (sorted : List Row) : String :=
  let body := sorted.foldl (fun acc r =>
    acc ++ "**" ++ entryName r ++ ":**\n" ++ r.actionItems ++ "\n\n---\n\n") ""
  "**Action Items from " ++ toString sorted.length ++ " Reviews:**\n\n" ++ body

/-- The result of `merge_multiple_reviews`. -/
structure Merged where
  summary : String
  feedback : String
  actionItems : String
  score : Option ℚ
  date : Option ℤ
  completionDate : Option ℤ
deriving DecidableEq

/-- `merge_multiple_reviews` (lines 468-529): `none` for groups of at
most one row; otherwise entries sorted by completion descending, the
mean of the present scores, and the maxima of the date columns. -/
def mergeMultipleReviews (g : List Row) : Option Merged :=
  if g.length ≤ 1 then none
  else
    let sorted := sortByCompletionDesc g
    let scores := sorted.filterMap (·.score)
    some {
      summary := pyStrip (mergedSummaryText sorted),
      feedback := pyStrip (mergedFeedbackText sorted),
      actionItems := pyStrip (mergedActionText sorted),
      score := if scores.isEmpty then none else some (qDivNat (qSum scores) scores.length),
      date := maxOption (sorted.map (·.reviewDate)),
      completionDate := maxOption (sorted.map (·.completionDate)) }

/-- `build_summary_with_sites` (lines 454-466): a dash-and-digit score
field prepends a per-site breakdown to the row's summary. -/
def buildSummaryWithSites (latest : Row) : String :=
  let f := latest.scoreRawDisp
  if (f.data.contains '–' || f.data.contains '—') && f.data.any Char.isDigit then
    "**Site Scores:** " ++ f ++ "\n\n---\n\n" ++ latest.summary
  else latest.summary

/-- A data-bearing record built from one authoritative row. -/
def recordFromRow (vert : String) (count : ℕ) (summaryText : String) (latest : Row) :
    Record :=
  { vertical := vert, hasData := true, score := latest.score,
    date := latest.reviewDate, completionDate := latest.completionDate,
    responseCount := count, director := latest.reviewer,
    summary := some summaryText, feedback := some latest.feedback,
    actionItems := some latest.actionItems, attendees := some latest.attendees,
    ifm := some latest.ifm }

/-- The standard (non-merged) record of a group (lines 586-604): the row
with the maximum completion date, with the site-breakdown summary.
`none` when `idxmax` raises (lines 587-588): the load crashes there and
the failure is propagated. -/
def buildStandardRecord (vert : String) (g : List Row) : Option Record :=
  match latestRow g with
  | some latest =>
    some (recordFromRow vert g.length (buildSummaryWithSites latest) latest)
  | none => none

/-- The record of an `Other`-vertical group (lines 677-696): like the
standard record but with the plain summary; `none` when `idxmax` raises
(lines 679-680). -/
def buildOtherRecord (g : List Row) : Option Record :=
  match latestRow g with
  | some latest => some (recordFromRow "Other" g.length latest.summary latest)
  | none => none

/-- The merged record of a group (lines 566-583): the merged texts and
mean score, the group's size as response count, and the group's first
row for director/attendees/IFM (`iloc[0]`).  The merge path itself never
fails; a group of at most one row falls through to the standard path. -/
def buildMergedRecord (vert : String) (g : List Row) : Option Record :=
  match mergeMultipleReviews g with
  | some m =>
    some
      { vertical := vert, hasData := true, score := m.score, date := m.date,
        completionDate := m.completionDate, responseCount := g.length,
        director := (match g with | f :: _ => f.reviewer | [] => none),
        summary := some m.summary, feedback := some m.feedback,
        actionItems := some m.actionItems,
        attendees := some (match g with | f :: _ => f.attendees | [] => ""),
        ifm := some (match g with | f :: _ => f.ifm | [] => "") }
  | none => buildStandardRecord vert g

/-- The record emitted for one identifier group of a roster account
(lines 565-604): merge-list accounts with more than one row are merged,
everything else takes the latest row; `none` when the group hits the
`idxmax` error. -/
def processGroup (account vert : String) (g : List Row) : Option Record :=
  if account ∈ mergeAccountsList ∧ 1 < g.length then buildMergedRecord vert g
  else buildStandardRecord vert g

/-- One roster iteration of the `get_all_accounts_with_data` loop
(lines 538-614): no processed rows at all, or none for this account,
yield a "no data" record; otherwise one record per distinct
`Account_Identifier` of the account's rows.  `none` as soon as one
group's record construction fails (the `idxmax` error aborts the load). -/
def rosterStep (rows : List Row) (m : List (String × Record))
    (account vert : String) : Option (List (String × Record)) :=
  if rows = [] then some (dinsert account (noDataRecord vert) m)
  else if rows.filter (fun r => r.accountNormalized = account) = [] then
    some (dinsert account (noDataRecord vert) m)
  else
    (uniquesFirst ((rows.filter (fun r => r.accountNormalized = account)).map
        (·.identifier))).foldl
      (fun om aid => om.bind (fun m' =>
        (processGroup account vert
          ((rows.filter (fun r => r.accountNormalized = account)).filter
            (fun r => r.identifier = aid))).map
          (fun rec => dinsert aid rec m')))
      (some m)

/-- The trailing `Other`-vertical pass (lines 670-696): one record per
distinct identifier among rows whose vertical is `Other`; `none` as soon
as one group hits the `idxmax` error. -/
def addOthers (rows : List Row) (m : List (String × Record)) :
    Option (List (String × Record)) :=
  if rows = [] then some m
  else
    (uniquesFirst ((rows.filter (fun r => r.vertical = "Other")).map
        (·.identifier))).foldl
      (fun om aid => om.bind (fun m' =>
        (buildOtherRecord
          ((rows.filter (fun r => r.vertical = "Other")).filter
            (fun r => r.identifier = aid))).map
          (fun rec => dinsert aid rec m')))
      (some m)

/-- `get_all_accounts_with_data` (lines 531-698): the roster pass
followed by the `Other` pass, starting from the empty dictionary;
`none` when any group raises in `idxmax`, in which case the load crashes
and no mapping is produced.  (The processed dataframe always carries the
`Account_Identifier` column when it is non-empty, so the source's legacy
no-identifier branch, lines 615-668, is unreachable and is not
modelled.) -/
def getAllAccountsWithData (rows : List Row) :
    Option (List (String × Record)) :=
  (account_to_vertical.foldl
      (fun om p => om.bind (fun m => rosterStep rows m p.1 p.2))
      (some [])).bind
    (fun m => addOthers rows m)

/-! ## Bridge lemmas: executable rational arithmetic vs `ℚ` operations -/

theorem qAdd_eq_add (a b : ℚ) : qAdd a b = a + b := by
  have ha : ((a.den : ℚ)) ≠ 0 := by exact_mod_cast a.den_nz
  have hb : ((b.den : ℚ)) ≠ 0 := by exact_mod_cast b.den_nz
  rw [qAdd, Rat.mkRat_eq_div]
  push_cast
  conv_rhs => rw [← Rat.num_div_den a, ← Rat.num_div_den b]
  rw [div_add_div _ _ ha hb]
  ring_nf

theorem qMulInt_eq_mul (k : ℤ) (a : ℚ) : qMulInt k a = k * a := by
  have ha : ((a.den : ℚ)) ≠ 0 := by exact_mod_cast a.den_nz
  rw [qMulInt, Rat.mkRat_eq_div]
  push_cast
  conv_rhs => rw [← Rat.num_div_den a]
  field_simp

theorem qDivNat_eq_div (a : ℚ) (n : ℕ) : qDivNat a n = a / n := by
  have ha : ((a.den : ℚ)) ≠ 0 := by exact_mod_cast a.den_nz
  rw [qDivNat, Rat.mkRat_eq_div]
  push_cast
  conv_rhs => rw [← Rat.num_div_den a]
  rw [div_div]

theorem qSum_eq_sum (l : List ℚ) : qSum l = l.sum := by
  have aux : ∀ (l : List ℚ) (acc : ℚ), l.foldl qAdd acc = acc + l.sum := by
    intro l
    induction l with
    | nil => intro acc; simp
    | cons x xs ih =>
      intro acc
      simp only [List.foldl_cons, ih, qAdd_eq_add, List.sum_cons]
      ring
  simpa using aux l 0

/-! ## Claim C9: idempotence of the text sanitizer -/

theorem foldl_map_substChar (ps : List (Char × Char)) (l : List Char) :
    ps.foldl (fun t p => t.map (substChar p)) l
      = l.map (fun c => ps.foldl (fun c p => substChar p c) c) := by
  induction ps generalizing l with
  | nil => simp
  | cons p ps ih =>
    simp only [List.foldl_cons, ih, List.map_map]
    rfl

theorem cleanString_eq_map (s : String) : cleanString s = ⟨s.data.map cleanChar⟩ := by
  simp only [cleanString, foldl_map_substChar]
  rfl

theorem cleanChar_idem (c : Char) : cleanChar (cleanChar c) = cleanChar c := by
  by_cases h1 : c = '�'
  · subst h1; decide
  by_cases h2 : c = '\x92'
  · subst h2; decide
  by_cases h3 : c = '\x93'
  · subst h3; decide
  by_cases h4 : c = '\x94'
  · subst h4; decide
  by_cases h5 : c = '\x96'
  · subst h5; decide
  by_cases h6 : c = '\x97'
  · subst h6; decide
  by_cases h7 : c = '\x91'
  · subst h7; decide
  by_cases h8 : c = '‘'
  · subst h8; decide
  by_cases h9 : c = '’'
  · subst h9; decide
  by_cases h10 : c = '“'
  · subst h10; decide
  by_cases h11 : c = '”'
  · subst h11; decide
  by_cases h12 : c = '–'
  · subst h12; decide
  by_cases h13 : c = '—'
  · subst h13; decide
  have hc : cleanChar c = c := by
    simp [cleanChar, replacements, substChar, h1, h2, h3, h4, h5, h6, h7, h8,
      h9, h10, h11, h12, h13]
  simp [hc]

/-- Claim C9: `clean_text` is idempotent on every value — re-applying it
to already-clean text is a no-op — and missing and non-text values pass
through unchanged. -/
theorem clean_text_idempotent :
    (∀ v : Cell, clean_text (clean_text v) = clean_text v) ∧
    clean_text Cell.na = Cell.na ∧
    (∀ q : ℚ, clean_text (Cell.num q) = Cell.num q) := by
  refine ⟨?_, rfl, fun q => rfl⟩
  intro v
  cases v with
  | na => rfl
  | num q => rfl
  | str s =>
    have hmap : ∀ l : List Char, (l.map cleanChar).map cleanChar = l.map cleanChar := by
      intro l
      induction l with
      | nil => rfl
      | cons c cs ih => simp only [List.map_cons, ih, cleanChar_idem]
    have hmm := hmap s.data
    have h1 := cleanString_eq_map s
    have h2 := cleanString_eq_map (⟨s.data.map cleanChar⟩ : String)
    show Cell.str (cleanString (cleanString s)) = Cell.str (cleanString s)
    rw [h1, h2]
    exact congrArg Cell.str (congrArg String.mk hmm)

/-! ## Claim C7: score-parsing examples -/

/-- Claim C7: `parse_score` maps "4.68" to 4.68, "4.93/5.00" to 4.93,
"N/A" to absent, "Every site scored a 5 this month" to 5.0, and
"Bloomfield – 4.0 St. Louis – 5.0" to 4.5 (the mean of 4.0 and 5.0). -/
theorem parse_score_examples :
    parse_score (some "4.68") = some (468 / 100 : ℚ) ∧
    parse_score (some "4.93/5.00") = some (493 / 100 : ℚ) ∧
    parse_score (some "N/A") = none ∧
    parse_score (some "Every site scored a 5 this month") = some (5 : ℚ) ∧
    parse_score (some "Bloomfield – 4.0 St. Louis – 5.0") = some (9 / 2 : ℚ) := by
  refine ⟨?_, ?_, by decide, ?_, ?_⟩
  · rw [show parse_score (some "4.68") = some (mkRat 468 100) from by decide,
      Rat.mkRat_eq_div]
    norm_num
  · rw [show parse_score (some "4.93/5.00") = some (mkRat 493 100) from by decide,
      Rat.mkRat_eq_div]
    norm_num
  · rw [show parse_score (some "Every site scored a 5 this month")
        = some (mkRat 5 1) from by decide, Rat.mkRat_eq_div]
    norm_num
  · rw [show parse_score (some "Bloomfield – 4.0 St. Louis – 5.0")
        = some (mkRat 9 2) from by decide, Rat.mkRat_eq_div]
    norm_num

/-! ## Claim C1: score bounds -/

/-- Counterexample to claim C1 as stated: the input "7" is directly
parseable as a float and is returned unclamped, outside [0.0, 5.0]. -/
theorem parse_score_out_of_range :
    parse_score (some "7") = some (7 : ℚ) ∧ ¬((7 : ℚ) ≤ 5) := by
  exact ⟨by decide, by norm_num⟩

theorem tryPattern_range (m : List Char → Option (List Char)) (low : List Char)
    (q : ℚ) (h : tryPattern m low = some q) : 0 ≤ q ∧ q ≤ 5 := by
  unfold tryPattern at h
  split at h
  · split at h
    · split at h
      · rename_i hb
        injection h with h'
        exact h' ▸ hb
      · cases h
    · cases h
  · cases h

theorem patternScore_range (l : List Char) (q : ℚ)
    (h : patternScore l = some q) : 0 ≤ q ∧ q ≤ 5 := by
  obtain ⟨_, m, _, _, hm, _⟩ := List.findSome?_eq_some_iff.mp h
  exact tryPattern_range m _ q hm

theorem list_sum_bounds (l : List ℚ) (h : ∀ x ∈ l, 0 ≤ x ∧ x ≤ 5) :
    0 ≤ l.sum ∧ l.sum ≤ 5 * l.length := by
  induction l with
  | nil => simp
  | cons x xs ih =>
    have hx := h x (List.mem_cons_self x xs)
    have hxs := ih (fun y hy => h y (List.mem_cons_of_mem x hy))
    simp only [List.sum_cons, List.length_cons]
    constructor
    · exact add_nonneg hx.1 hxs.1
    · push_cast
      nlinarith [hx.2, hxs.2]

theorem fallbackMean_range (l : List Char) (q : ℚ)
    (h : fallbackMean l = some q) : 0 ≤ q ∧ q ≤ 5 := by
  unfold fallbackMean at h
  set nums := (findallNumbers l).filterMap (fun cap => parsePyFloat? ⟨cap⟩) with hnums
  set valid := nums.filter (fun q => decide (0 ≤ q ∧ q ≤ 5)) with hvalid
  by_cases he : valid.isEmpty
  · rw [if_pos he] at h; cases h
  · rw [if_neg he] at h
    injection h with h'
    have hmem : ∀ x ∈ valid, 0 ≤ x ∧ x ≤ 5 := by
      intro x hx
      have := (List.mem_filter.mp (hvalid ▸ hx)).2
      exact of_decide_eq_true this
    have hlen : 0 < valid.length := by
      cases hv : valid with
      | nil => rw [hv] at he; simp at he
      | cons a as => simp [hv]
    have hb := list_sum_bounds valid hmem
    have hlenq : (0 : ℚ) < valid.length := by exact_mod_cast hlen
    rw [qDivNat_eq_div, qSum_eq_sum] at h'
    subst h'
    constructor
    · exact div_nonneg hb.1 (le_of_lt hlenq)
    · rw [div_le_iff₀ hlenq]
      exact hb.2

/-- Claim C1, corrected: `parse_score` returns absent, or the raw value of
the direct-float or slash-numerator branches (which is not clamped and may
lie outside [0.0, 5.0]), or — from the pattern and averaging branches — a
value within [0.0, 5.0]. -/
theorem parse_score_bounds_amended (v : Option String) :
    parse_score v = none ∨
    ∃ raw q, v = some raw ∧ parse_score v = some q ∧
      (parsePyFloat? (pyStrip raw) = some q ∨
       slashNumerator (pyStrip raw) = some q ∨
       (0 ≤ q ∧ q ≤ 5)) := by
  cases v with
  | none => exact Or.inl rfl
  | some raw =>
    by_cases hna : pyUpper (pyStrip raw) = "N/A"
    · exact Or.inl (by simp [parse_score, hna])
    cases hf : parsePyFloat? (pyStrip raw) with
    | some q =>
      exact Or.inr ⟨raw, q, rfl, by simp [parse_score, hna, hf], Or.inl hf⟩
    | none =>
      cases hsl : slashNumerator (pyStrip raw) with
      | some q =>
        exact Or.inr ⟨raw, q, rfl, by simp [parse_score, hna, hf, hsl],
          Or.inr (Or.inl hsl)⟩
      | none =>
        cases hp : patternScore (pyStrip raw).data with
        | some q =>
          exact Or.inr ⟨raw, q, rfl, by simp [parse_score, hna, hf, hsl, hp],
            Or.inr (Or.inr (patternScore_range _ q hp))⟩
        | none =>
          cases hfb : fallbackMean (pyStrip raw).data with
          | none => exact Or.inl (by simp [parse_score, hna, hf, hsl, hp, hfb])
          | some q =>
            exact Or.inr ⟨raw, q, rfl, by simp [parse_score, hna, hf, hsl, hp, hfb],
              Or.inr (Or.inr (fallbackMean_range _ q hfb))⟩

/-! ## Claim C3: the schema reconciler's column-set choice -/

/-- A row whose continuation account-name cell is populated but whose
continuation score cell is blank, while the primary score cell holds a
value: the per-field rule of the claim and the row-level rule of the
code disagree here. -/
def c3Row : RawRow :=
  { nameNew := some "Acme Co", scoreOrig := some "4.0", scoreNew := none }

/-- Counterexample to claim C3 as stated: on `c3Row` (a row of a month
with no schema override), the claim's per-field rule picks the primary
score "4.0", but the code's unified value is the blank default, because
the column-set switch looks only at the continuation account-name cell. -/
theorem schema_per_field_counterexample :
    specFieldValue c3Row.scoreOrig c3Row.scoreNew = some "4.0" ∧
    getColumnValue false c3Row c3Row.scoreOrig c3Row.scoreNew = none ∧
    getUnifiedColumn false c3Row c3Row.scoreOrig c3Row.scoreNew = "" ∧
    getColumnValue false c3Row c3Row.scoreOrig c3Row.scoreNew
      ≠ specFieldValue c3Row.scoreOrig c3Row.scoreNew := by
  decide

/-- Claim C3, corrected: for rows of months with no schema override, the
unified value of every logical field is chosen by one per-row switch on
the continuation account-name column — when that column is non-missing
and non-blank after trimming, every field takes its continuation value
(a blank one becomes the empty default rather than falling back), and
otherwise every field takes its primary value. -/
theorem schema_row_level_switch (r : RawRow) (origVal newVal : Option String) :
    getColumnValue false r origVal newVal
      = (if isNonBlank r.nameNew then newVal else origVal) ∧
    getUnifiedColumn false r origVal newVal
      = (match (if isNonBlank r.nameNew then newVal else origVal) with
         | none => ""
         | some s => pyStrip s) := by
  have key : ∀ v : Option String,
      (match v with
       | none => ""
       | some s => if pyStrip s = "" then "" else pyStrip s)
        = (match v with | none => "" | some s => pyStrip s) := by
    intro v
    cases v with
    | none => rfl
    | some s =>
      by_cases he : pyStrip s = ""
      · simp [he]
      · simp [he]
  refine ⟨rfl, ?_⟩
  show (match getColumnValue false r origVal newVal with
        | none => ""
        | some s => if pyStrip s = "" then "" else pyStrip s) = _
  rw [key (getColumnValue false r origVal newVal)]
  rfl

/-! ## Claim C6: IFM sub-identity grouping -/

theorem uniquesFirst_go_nodup (l seen : List String) :
    (uniquesFirst.go seen l).Nodup ∧ ∀ x ∈ uniquesFirst.go seen l, x ∉ seen := by
  induction l generalizing seen with
  | nil => simp [uniquesFirst.go]
  | cons x xs ih =>
    by_cases hx : x ∈ seen
    · rw [uniquesFirst.go, if_pos hx]
      exact ih seen
    · rw [uniquesFirst.go, if_neg hx]
      obtain ⟨h1, h2⟩ := ih (x :: seen)
      refine ⟨List.nodup_cons.mpr ⟨fun hmem => (h2 x hmem) (List.mem_cons_self x seen), h1⟩, ?_⟩
      intro y hy
      rcases List.mem_cons.mp hy with rfl | hy'
      · exact hx
      · exact fun hys => (h2 y hy') (List.mem_cons_of_mem x hys)

/-- Counterexample to claim C6 as stated: for a month that is not the
December cohort, a populated IFM field does not decorate the account
key — the row is keyed by the bare canonical name, so the grouping is
not by composite key "regardless of which month is loaded". -/
theorem ifm_key_month_dependent :
    createAccountIdentifier false "Merck" "Sodexo" = "Merck" ∧
    ("Merck" : String) ≠ "Merck (Sodexo)" := by
  decide

/-- Claim C6, corrected: a populated IFM field produces the decorated
composite key exactly when the December schema override is active (and
the IFM value is still non-blank after deleting "(None)" and trimming);
for other months the key is the bare canonical name.  Each distinct key
yields exactly one record, since the aggregator iterates the distinct
identifiers of a group (`uniquesFirst`), which carry no duplicates. -/
theorem ifm_composite_key_amended (base ifm : String)
    (h : pyStrip ⟨removeNoneToken ifm.data⟩ ≠ "") :
    createAccountIdentifier true base ifm
      = base ++ " (" ++ pyStrip ⟨removeNoneToken ifm.data⟩ ++ ")" ∧
    createAccountIdentifier false base ifm = base ∧
    ∀ l : List String, (uniquesFirst l).Nodup := by
  have hifm : ifm ≠ "" := by
    intro he
    exact h (by rw [he]; decide)
  refine ⟨?_, ?_, fun l => (uniquesFirst_go_nodup l []).1⟩
  · unfold createAccountIdentifier
    rw [if_pos ⟨rfl, hifm⟩, if_pos h]
  · unfold createAccountIdentifier
    simp

/-- Witness for `ifm_composite_key_amended` at base "Merck", IFM
"Sodexo". -/
theorem ifm_composite_key_amended_witness :
    (pyStrip ⟨removeNoneToken "Sodexo".data⟩ ≠ "") ∧
    (createAccountIdentifier true "Merck" "Sodexo"
        = "Merck" ++ " (" ++ pyStrip ⟨removeNoneToken "Sodexo".data⟩ ++ ")" ∧
      createAccountIdentifier false "Merck" "Sodexo" = "Merck" ∧
      ∀ l : List String, (uniquesFirst l).Nodup) :=
  ⟨by decide, ifm_composite_key_amended "Merck" "Sodexo" (by decide)⟩

/-! ## Claim C10: when the resolver drops a row -/

/-- A date parser for the concrete pipeline runs below. -/
def c10ParseDate : String → Option ℤ := fun s => if s = "t1" then some 1 else none

/-- A raw row whose account label is whitespace-only. -/
def c10Row : RawRow := { nameOrig := some "   ", completionTime := some "t1" }

/-- Claim C10: `normalize_account_name` returns `none` (dropping the row)
iff the input is missing or its trimmed value is a variant-table key
mapped to the exclusion sentinel; a present but whitespace-only label
instead normalizes to the empty string, lands in vertical "Other", and
surfaces in the final mapping as a data-bearing record keyed by `""`. -/
theorem normalize_none_iff :
    (∀ v : Option String, normalize_account_name v = none ↔
      (v = none ∨ ∃ a, v = some a ∧ lookupVariation (pyStrip a) = some none)) ∧
    normalize_account_name (some "   ") = some "" ∧
    verticalOf "" = "Other" ∧
    ((getAllAccountsWithData (processData false c10ParseDate [c10Row])).bind
        (fun out => List.lookup "" out)).map
      (fun rec => (rec.vertical, rec.hasData)) = some ("Other", true) := by
  refine ⟨?_, by decide, by decide, by decide⟩
  intro v
  cases v with
  | none => simp [normalize_account_name]
  | some a =>
    simp only [normalize_account_name]
    cases hl : lookupVariation (pyStrip a) with
    | none =>
      constructor
      · intro hcontra
        by_cases hr : (account_to_vertical.find? (fun p => p.1 = pyStrip a)).isSome
        · rw [if_pos hr] at hcontra; cases hcontra
        · rw [if_neg hr] at hcontra
          cases hci : account_to_vertical.find?
              (fun p => pyLower p.1 = pyLower (pyStrip a)) with
          | some p => rw [hci] at hcontra; cases hcontra
          | none => rw [hci] at hcontra; cases hcontra
      · rintro (h | ⟨a', ha', hexc⟩)
        · cases h
        · injection ha' with h
          subst h
          rw [hl] at hexc
          cases hexc
    | some ov =>
      cases ov with
      | none =>
        constructor
        · intro _
          exact Or.inr ⟨a, rfl, hl⟩
        · intro _
          rfl
      | some t =>
        constructor
        · intro hc
          cases hc
        · rintro (h | ⟨a', ha', hexc⟩)
          · cases h
          · injection ha' with h
            subst h
            rw [hl] at hexc
            simp at hexc

/-! ## Claim C8: exclusion-sentinel rows are silently dropped -/

theorem filterMap_filter_of_none {α β : Type} (f : α → Option β) (p : α → Bool)
    (h : ∀ x, p x = false → f x = none) (l : List α) :
    (l.filter p).filterMap f = l.filterMap f := by
  induction l with
  | nil => rfl
  | cons x xs ih =>
    cases hp : p x with
    | false =>
      rw [List.filter_cons_of_neg (by simp [hp]), List.filterMap_cons_none (h x hp), ih]
    | true =>
      rw [List.filter_cons_of_pos hp, List.filterMap_cons, List.filterMap_cons, ih]

theorem toRow_none_of_excluded (isDec : Bool) (pd : String → Option ℤ) (r : RawRow)
    (h : isExcludedRow isDec r = true) : toRow isDec pd r = none := by
  unfold isExcludedRow at h
  cases hn : getAccountName isDec r with
  | none => rw [hn] at h; cases h
  | some a =>
    rw [hn] at h
    have hexc : lookupVariation (pyStrip a) = some none := eq_of_beq h
    have hnorm : normalize_account_name (some a) = none := by
      simp [normalize_account_name, hexc]
    simp [toRow, hn, hnorm]

/-- Claim C8: a raw row whose label the variant table maps to the
exclusion sentinel (e.g. "Omnicom") contributes nothing to the pipeline:
deleting all such rows from the input leaves the processed rows — and
hence the whole final account mapping, under every key — unchanged, and
no error is raised (processing is total). -/
theorem excluded_rows_dropped (isDec : Bool) (pd : String → Option ℤ)
    (df : List RawRow) :
    processData isDec pd df
      = processData isDec pd (df.filter (fun r => !(isExcludedRow isDec r))) ∧
    getAllAccountsWithData (processData isDec pd df)
      = getAllAccountsWithData
          (processData isDec pd (df.filter (fun r => !(isExcludedRow isDec r)))) ∧
    lookupVariation "Omnicom" = some none ∧
    normalize_account_name (some "Omnicom") = none := by
  have hnone : ∀ r, (!(isExcludedRow isDec r)) = false → toRow isDec pd r = none := by
    intro r hr
    exact toRow_none_of_excluded isDec pd r (by simpa using hr)
  have h1 : processData isDec pd df
      = processData isDec pd (df.filter (fun r => !(isExcludedRow isDec r))) := by
    unfold processData
    cases isDec with
    | false =>
      show df.filterMap _ = (df.filter _).filterMap _
      exact (filterMap_filter_of_none _ _ hnone df).symm
    | true =>
      show (df.filter _).filterMap _ = ((df.filter _).filter _).filterMap _
      rw [List.filter_comm]
      exact (filterMap_filter_of_none _ _ hnone _).symm
  exact ⟨h1, congrArg getAllAccountsWithData h1, by decide, by decide⟩

/-! ## Claim C5: the authoritative row of a non-merged group -/

theorem latestRow_mem (g : List Row) (b : Row) (h : latestRow g = some b) : b ∈ g := by
  induction g generalizing b with
  | nil => cases h
  | cons x xs ih =>
    simp only [latestRow] at h
    cases hx : x.completionDate with
    | none =>
      simp only [hx] at h
      exact List.mem_cons_of_mem x (ih b h)
    | some t =>
      simp only [hx] at h
      cases hl : latestRow xs with
      | none =>
        simp only [hl] at h
        injection h with h'
        exact h' ▸ List.mem_cons_self x xs
      | some b' =>
        simp only [hl] at h
        have hb' : b' ∈ xs := ih b' hl
        cases hbc : b'.completionDate with
        | none =>
          simp only [hbc] at h
          injection h with h'
          exact h' ▸ List.mem_cons_self x xs
        | some t' =>
          simp only [hbc] at h
          by_cases hle : t' ≤ t
          · rw [if_pos hle] at h
            injection h with h'
            exact h' ▸ List.mem_cons_self x xs
          · rw [if_neg hle] at h
            injection h with h'
            exact h' ▸ List.mem_cons_of_mem x hb'

theorem latestRow_unique_max (g : List Row) (r : Row) (t : ℤ)
    (hr : r ∈ g) (ht : r.completionDate = some t)
    (hmax : ∀ r' ∈ g, r' ≠ r → ∀ t', r'.completionDate = some t' → t' < t) :
    latestRow g = some r := by
  induction g with
  | nil => cases hr
  | cons x xs ih =>
    by_cases hxr : x = r
    · subst hxr
      simp only [latestRow, ht]
      cases hl : latestRow xs with
      | none => rfl
      | some b =>
        simp only []
        have hb : b ∈ xs := latestRow_mem xs b hl
        by_cases hbr : b = x
        · subst hbr
          simp only [ht, if_pos (le_refl t)]
        · have hbx := hmax b (List.mem_cons_of_mem x hb) hbr
          cases hbc : b.completionDate with
          | none => rfl
          | some t' =>
            simp only [hbc, if_pos (le_of_lt (hbx t' hbc))]
    · have hmem : r ∈ xs := by
        rcases List.mem_cons.mp hr with h | h
        · exact absurd h.symm hxr
        · exact h
      have ih' := ih hmem
        (fun r' h' hne t' ht' => hmax r' (List.mem_cons_of_mem x h') hne t' ht')
      simp only [latestRow, ih']
      cases hxc : x.completionDate with
      | none => rfl
      | some tx =>
        have hlt : tx < t := hmax x (List.mem_cons_self x xs) hxr tx hxc
        simp only [ht, if_neg (not_le.mpr hlt)]

/-- Claim C5: for a group that is not on the multi-entry merge list (or
has exactly one row) and whose rows have a unique maximum completion
timestamp, the emitted record's score, review date, completion date,
account director, summary, customer feedback, action items and attendees
are all taken from the single row bearing that maximum timestamp. -/
theorem latest_row_selected (account vert : String) (g : List Row) (r : Row) (t : ℤ)
    (hnm : account ∉ mergeAccountsList ∨ g.length = 1)
    (hr : r ∈ g) (ht : r.completionDate = some t)
    (hmax : ∀ r' ∈ g, r' ≠ r → ∀ t', r'.completionDate = some t' → t' < t) :
    processGroup account vert g
      = some { vertical := vert, hasData := true, score := r.score,
               date := r.reviewDate, completionDate := r.completionDate,
               responseCount := g.length, director := r.reviewer,
               summary := some (buildSummaryWithSites r),
               feedback := some r.feedback, actionItems := some r.actionItems,
               attendees := some r.attendees, ifm := some r.ifm } := by
  have hlr := latestRow_unique_max g r t hr ht hmax
  have hstd : buildStandardRecord vert g
      = some (recordFromRow vert g.length (buildSummaryWithSites r) r) := by
    unfold buildStandardRecord
    rw [hlr]
  unfold processGroup
  rcases hnm with h | h
  · rw [if_neg (fun hc => h hc.1)]
    exact hstd
  · rw [if_neg (fun hc => by rw [h] at hc; exact lt_irrefl 1 hc.2)]
    exact hstd

/-- One concrete non-merge-list row (later completion). -/
def c5RowA : Row :=
  { accountName := some "Delta Air Lines", accountNormalized := "Delta Air Lines",
    ifm := "", identifier := "Delta Air Lines", vertical := "Aviation",
    score := none, scoreRawDisp := "", reviewDate := some 10,
    completionDate := some 5, reviewer := some "A", summary := "sA",
    feedback := "fA", actionItems := "aA", attendees := "tA", nextReview := "" }

/-- One concrete non-merge-list row (earlier completion). -/
def c5RowB : Row :=
  { accountName := some "Delta Air Lines", accountNormalized := "Delta Air Lines",
    ifm := "", identifier := "Delta Air Lines", vertical := "Aviation",
    score := none, scoreRawDisp := "", reviewDate := some 8,
    completionDate := some 3, reviewer := some "B", summary := "sB",
    feedback := "fB", actionItems := "aB", attendees := "tB", nextReview := "" }

/-- Witness for `latest_row_selected` on a concrete two-row group. -/
theorem latest_row_selected_witness :
    ("Delta Air Lines" ∉ mergeAccountsList ∨ ([c5RowA, c5RowB] : List Row).length = 1) ∧
    c5RowA ∈ [c5RowA, c5RowB] ∧
    c5RowA.completionDate = some 5 ∧
    (∀ r' ∈ [c5RowA, c5RowB], r' ≠ c5RowA →
      ∀ t', r'.completionDate = some t' → t' < 5) ∧
    processGroup "Delta Air Lines" "Aviation" [c5RowA, c5RowB]
      = some { vertical := "Aviation", hasData := true, score := c5RowA.score,
               date := c5RowA.reviewDate, completionDate := c5RowA.completionDate,
               responseCount := ([c5RowA, c5RowB] : List Row).length,
               director := c5RowA.reviewer,
               summary := some (buildSummaryWithSites c5RowA),
               feedback := some c5RowA.feedback,
               actionItems := some c5RowA.actionItems,
               attendees := some c5RowA.attendees, ifm := some c5RowA.ifm } := by
  have hmax : ∀ r' ∈ [c5RowA, c5RowB], r' ≠ c5RowA →
      ∀ t', r'.completionDate = some t' → t' < 5 := by
    intro r' hr' hne t' ht'
    rcases List.mem_cons.mp hr' with rfl | h2
    · exact absurd rfl hne
    · rcases List.mem_cons.mp h2 with rfl | h3
      · rw [show c5RowB.completionDate = some 3 from rfl] at ht'
        injection ht' with h4
        omega
      · cases h3
  exact ⟨Or.inl (by decide), List.mem_cons_self _ _, rfl, hmax,
    latest_row_selected "Delta Air Lines" "Aviation" [c5RowA, c5RowB] c5RowA 5
      (Or.inl (by decide)) (List.mem_cons_self _ _) rfl hmax⟩

/-! ## Claim C4: merge-list aggregation -/

theorem insertSorted_perm (a : Row) (l : List Row) :
    List.Perm (insertSorted a l) (a :: l) := by
  induction l with
  | nil => exact List.Perm.refl _
  | cons b bs ih =>
    rw [insertSorted]
    by_cases h : cmpRows a b
    · rw [if_pos h]
    · rw [if_neg h]
      exact List.Perm.trans (List.Perm.cons b ih) (List.Perm.swap a b bs)

theorem sortByCompletionDesc_perm (g : List Row) :
    List.Perm (sortByCompletionDesc g) g := by
  induction g with
  | nil => exact List.Perm.refl _
  | cons x xs ih =>
    show List.Perm (insertSorted x (sortByCompletionDesc xs)) (x :: xs)
    exact List.Perm.trans (insertSorted_perm _ _) (List.Perm.cons x ih)

/-- Claim C4: for a merge-list account group with more than one row, the
merged record's response count is the total number of rows, and its
score is the arithmetic mean of the parsed scores of exactly the rows
whose score is present (absent scores excluded from numerator and
denominator alike; no present score at all yields an absent score). -/
theorem merged_score_mean (account vert : String) (g : List Row)
    (hm : account ∈ mergeAccountsList) (hlen : 1 < g.length) :
    ∃ rec, processGroup account vert g = some rec ∧
      rec.responseCount = g.length ∧
      rec.score
        = (if (g.filterMap Row.score).isEmpty then none
           else some ((g.filterMap Row.score).sum
             / ((g.filterMap Row.score).length : ℚ))) := by
  have hgle : ¬(g.length ≤ 1) := not_le.mpr hlen
  have hperm : List.Perm ((sortByCompletionDesc g).filterMap Row.score)
      (g.filterMap Row.score) :=
    (sortByCompletionDesc_perm g).filterMap _
  cases hmm : mergeMultipleReviews g with
  | none =>
    rw [mergeMultipleReviews, if_neg hgle] at hmm
    cases hmm
  | some merged =>
    obtain ⟨f, tail, rfl⟩ : ∃ f tail, g = f :: tail := by
      cases g with
      | nil => simp at hlen
      | cons f tail => exact ⟨f, tail, rfl⟩
    have hrec : processGroup account vert (f :: tail)
        = some { vertical := vert, hasData := true, score := merged.score,
                 date := merged.date, completionDate := merged.completionDate,
                 responseCount := (f :: tail).length,
                 director := f.reviewer,
                 summary := some merged.summary,
                 feedback := some merged.feedback,
                 actionItems := some merged.actionItems,
                 attendees := some f.attendees,
                 ifm := some f.ifm } := by
      rw [processGroup, if_pos (And.intro hm hlen)]
      unfold buildMergedRecord
      rw [hmm]
    refine ⟨_, hrec, rfl, ?_⟩
    have hscore : merged.score
        = (if ((sortByCompletionDesc (f :: tail)).filterMap Row.score).isEmpty then none
           else some (qDivNat (qSum ((sortByCompletionDesc (f :: tail)).filterMap Row.score))
             ((sortByCompletionDesc (f :: tail)).filterMap Row.score).length)) := by
      rw [mergeMultipleReviews, if_neg hgle] at hmm
      injection hmm with h'
      rw [← h']
    show merged.score = _
    rw [hscore]
    have hlen2 := hperm.length_eq
    have hsum := hperm.sum_eq
    by_cases he : ((f :: tail).filterMap Row.score).isEmpty
    · have he2 : ((sortByCompletionDesc (f :: tail)).filterMap Row.score).isEmpty := by
        rw [List.isEmpty_iff_length_eq_zero] at he ⊢
        rw [hlen2, he]
      rw [if_pos he2, if_pos he]
    · have he2 : ¬((sortByCompletionDesc (f :: tail)).filterMap Row.score).isEmpty := by
        rw [List.isEmpty_iff_length_eq_zero] at he ⊢
        rw [hlen2]
        exact he
      rw [if_neg he2, if_neg he, qDivNat_eq_div, qSum_eq_sum, hsum, hlen2]

/-- A concrete merge-list row with score 5.0. -/
def c4Row1 : Row :=
  { accountName := some "Nike/DHL", accountNormalized := "Nike", ifm := "",
    identifier := "Nike", vertical := "Distribution", score := some 5,
    scoreRawDisp := "5.0", reviewDate := some 1, completionDate := some 1,
    reviewer := some "R1", summary := "s1", feedback := "f1",
    actionItems := "a1", attendees := "t1", nextReview := "" }

/-- A concrete merge-list row with score 4.0. -/
def c4Row2 : Row :=
  { accountName := some "Nike/GXO Relay", accountNormalized := "Nike", ifm := "",
    identifier := "Nike", vertical := "Distribution", score := some 4,
    scoreRawDisp := "4.0", reviewDate := some 2, completionDate := some 2,
    reviewer := some "R2", summary := "s2", feedback := "f2",
    actionItems := "a2", attendees := "t2", nextReview := "" }

/-- A concrete merge-list row with an absent score. -/
def c4Row3 : Row :=
  { accountName := some "Nike/NALC", accountNormalized := "Nike", ifm := "",
    identifier := "Nike", vertical := "Distribution", score := none,
    scoreRawDisp := "N/A", reviewDate := some 3, completionDate := some 3,
    reviewer := some "R3", summary := "s3", feedback := "f3",
    actionItems := "a3", attendees := "t3", nextReview := "" }

/-- Witness for `merged_score_mean` on the claim's own instance: three
rows with scores 5.0, 4.0 and absent yield score 4.5 (`mkRat 9 2`) and
response count 3. -/
theorem merged_score_mean_witness :
    ("Nike" ∈ mergeAccountsList) ∧ 1 < ([c4Row1, c4Row2, c4Row3] : List Row).length ∧
    (∃ rec, processGroup "Nike" "Distribution" [c4Row1, c4Row2, c4Row3] = some rec ∧
      rec.responseCount = ([c4Row1, c4Row2, c4Row3] : List Row).length ∧
      rec.score
        = (if (([c4Row1, c4Row2, c4Row3] : List Row).filterMap Row.score).isEmpty then none
           else some ((([c4Row1, c4Row2, c4Row3] : List Row).filterMap Row.score).sum
             / ((([c4Row1, c4Row2, c4Row3] : List Row).filterMap Row.score).length : ℚ)))) ∧
    (processGroup "Nike" "Distribution" [c4Row1, c4Row2, c4Row3]).bind Record.score
      = some (mkRat 9 2) ∧
    (processGroup "Nike" "Distribution" [c4Row1, c4Row2, c4Row3]).map Record.responseCount
      = some 3 :=
  ⟨by decide, by decide,
    merged_score_mean "Nike" "Distribution" [c4Row1, c4Row2, c4Row3] (by decide) (by decide),
    by decide, by decide⟩

/-! ## Claim C2: totality of the catalog -/

/-- A key of the output mapping resolves to a roster account when it is
the account's canonical name, or that name decorated with a (non-empty)
sub-identity suffix. -/
def resolvesTo (k a : String) : Prop :=
  k = a ∨ ∃ s, s ≠ "" ∧ k = a ++ " (" ++ s ++ ")"

/-- The shape of a "no data" record: `has_data` false, score, review
date and completion date null, response count zero. -/
def noDataShape (v : Record) : Prop :=
  v.hasData = false ∧ v.score = none ∧ v.date = none ∧
  v.completionDate = none ∧ v.responseCount = 0

theorem noDataShape_noDataRecord (vert : String) : noDataShape (noDataRecord vert) :=
  ⟨rfl, rfl, rfl, rfl, rfl⟩

theorem lookup_dinsert_self (k : String) (v : Record) (m : List (String × Record)) :
    List.lookup k (dinsert k v m) = some v := by
  induction m with
  | nil => simp [dinsert, List.lookup]
  | cons p rest ih =>
    rw [dinsert]
    by_cases hp : p.1 = k
    · rw [if_pos hp]
      simp [List.lookup]
    · rw [if_neg hp]
      rw [List.lookup]
      have hb : (k == p.1) = false := beq_eq_false_iff_ne.mpr (fun he => hp he.symm)
      simp only [hb]
      exact ih

theorem lookup_dinsert_ne (k' k : String) (v : Record) (m : List (String × Record))
    (h : k' ≠ k) : List.lookup k' (dinsert k v m) = List.lookup k' m := by
  have hb : (k' == k) = false := beq_eq_false_iff_ne.mpr h
  induction m with
  | nil =>
    simp [dinsert, List.lookup, hb]
  | cons p rest ih =>
    rw [dinsert]
    by_cases hp : p.1 = k
    · rw [if_pos hp]
      rw [List.lookup, List.lookup]
      simp only [hp, hb]
    · rw [if_neg hp]
      rw [List.lookup, List.lookup]
      cases hpk : k' == p.1
      · simp only [hpk]
        exact ih
      · simp only [hpk]

theorem uniquesFirst_go_mem (l : List String) (seen : List String) (x : String) :
    x ∈ uniquesFirst.go seen l ↔ (x ∈ l ∧ x ∉ seen) := by
  induction l generalizing seen with
  | nil => simp [uniquesFirst.go]
  | cons y ys ih =>
    by_cases hy : y ∈ seen
    · rw [uniquesFirst.go, if_pos hy, ih]
      constructor
      · exact fun ⟨h1, h2⟩ => ⟨List.mem_cons_of_mem y h1, h2⟩
      · rintro ⟨h1, h2⟩
        rcases List.mem_cons.mp h1 with rfl | h3
        · exact absurd hy h2
        · exact ⟨h3, h2⟩
    · rw [uniquesFirst.go, if_neg hy]
      constructor
      · intro hx
        rcases List.mem_cons.mp hx with rfl | h3
        · exact ⟨List.mem_cons_self x ys, hy⟩
        · obtain ⟨h4, h5⟩ := (ih (y :: seen)).mp h3
          exact ⟨List.mem_cons_of_mem y h4,
            fun hs => h5 (List.mem_cons_of_mem y hs)⟩
      · rintro ⟨h1, h2⟩
        by_cases hxy : x = y
        · exact hxy ▸ List.mem_cons_self x _
        · rcases List.mem_cons.mp h1 with h3 | h3
          · exact absurd h3 hxy
          · refine List.mem_cons_of_mem y ((ih (y :: seen)).mpr ⟨h3, ?_⟩)
            intro hs
            rcases List.mem_cons.mp hs with h4 | h4
            · exact hxy h4
            · exact h2 h4

theorem uniquesFirst_mem (l : List String) (x : String) :
    x ∈ uniquesFirst l ↔ x ∈ l := by
  rw [uniquesFirst, uniquesFirst_go_mem]
  simp

theorem buildStandardRecord_hasData (vert : String) (g : List Row) (rec : Record)
    (h : buildStandardRecord vert g = some rec) : rec.hasData = true := by
  unfold buildStandardRecord at h
  cases hl : latestRow g with
  | some latest =>
    simp only [hl] at h
    rw [← Option.some.inj h]
    rfl
  | none =>
    simp only [hl] at h
    exact Option.noConfusion h

theorem buildOtherRecord_hasData (g : List Row) (rec : Record)
    (h : buildOtherRecord g = some rec) : rec.hasData = true := by
  unfold buildOtherRecord at h
  cases hl : latestRow g with
  | some latest =>
    simp only [hl] at h
    rw [← Option.some.inj h]
    rfl
  | none =>
    simp only [hl] at h
    exact Option.noConfusion h

theorem processGroup_hasData (account vert : String) (g : List Row) (rec : Record)
    (h : processGroup account vert g = some rec) : rec.hasData = true := by
  unfold processGroup at h
  by_cases hc : account ∈ mergeAccountsList ∧ 1 < g.length
  · rw [if_pos hc] at h
    unfold buildMergedRecord at h
    cases hm : mergeMultipleReviews g with
    | some m =>
      simp only [hm] at h
      rw [← Option.some.inj h]
    | none =>
      simp only [hm] at h
      exact buildStandardRecord_hasData vert g rec h
  · rw [if_neg hc] at h
    exact buildStandardRecord_hasData vert g rec h

theorem foldO_none (F : String → Option Record) (L : List String) :
    L.foldl (fun om a => om.bind
      (fun m' => (F a).map (fun rec => dinsert a rec m'))) none = none := by
  induction L with
  | nil => rfl
  | cons a as ih =>
    rw [List.foldl_cons]
    exact ih

theorem rosterFold_none (rows : List Row) (L : List (String × String)) :
    L.foldl (fun om p => om.bind (fun m => rosterStep rows m p.1 p.2)) none
      = none := by
  induction L with
  | nil => rfl
  | cons p ps ih =>
    rw [List.foldl_cons]
    exact ih

theorem rosterFold_eq_some (rows : List Row) (L : List (String × String))
    (om : Option (List (String × Record))) (out : List (String × Record))
    (h : L.foldl (fun om' p => om'.bind (fun m => rosterStep rows m p.1 p.2)) om
      = some out) :
    ∃ m, om = some m := by
  cases om with
  | some m => exact ⟨m, rfl⟩
  | none => exact Option.noConfusion ((rosterFold_none rows L).symm.trans h)

theorem lookup_foldO_not_mem (F : String → Option Record) (L : List String)
    (k : String) :
    ∀ (m out : List (String × Record)), k ∉ L →
      L.foldl (fun om a => om.bind
        (fun m' => (F a).map (fun rec => dinsert a rec m'))) (some m) = some out →
      List.lookup k out = List.lookup k m := by
  induction L with
  | nil =>
    intro m out _ h
    rw [List.foldl_nil] at h
    rw [Option.some.inj h]
  | cons a as ih =>
    intro m out hk h
    rw [List.foldl_cons] at h
    have hka : k ≠ a := fun he => hk (he ▸ List.mem_cons_self a as)
    have hk' : k ∉ as := fun hmm => hk (List.mem_cons_of_mem a hmm)
    cases hFa : F a with
    | none =>
      simp only [Option.some_bind, hFa, Option.map_none'] at h
      exact Option.noConfusion ((foldO_none F as).symm.trans h)
    | some rec =>
      simp only [Option.some_bind, hFa, Option.map_some'] at h
      rw [ih (dinsert a rec m) out hk' h]
      exact lookup_dinsert_ne k a rec m hka

theorem foldO_holds (φ : Record → Prop) (F : String → Option Record)
    (L : List String) (k : String) :
    ∀ (m out : List (String × Record)),
      (∀ a ∈ L, ∀ rec, F a = some rec → φ rec) →
      ((∃ v, List.lookup k m = some v ∧ φ v) ∨ k ∈ L) →
      L.foldl (fun om a => om.bind
        (fun m' => (F a).map (fun rec => dinsert a rec m'))) (some m) = some out →
      ∃ v, List.lookup k out = some v ∧ φ v := by
  induction L with
  | nil =>
    intro m out _ h0 h
    rw [List.foldl_nil] at h
    rcases h0 with hv | hk
    · rw [← Option.some.inj h]
      exact hv
    · exact absurd hk (List.not_mem_nil k)
  | cons a as ih =>
    intro m out hF h0 h
    rw [List.foldl_cons] at h
    cases hFa : F a with
    | none =>
      simp only [Option.some_bind, hFa, Option.map_none'] at h
      exact Option.noConfusion ((foldO_none F as).symm.trans h)
    | some rec =>
      simp only [Option.some_bind, hFa, Option.map_some'] at h
      have hF' : ∀ b ∈ as, ∀ rec', F b = some rec' → φ rec' :=
        fun b hb => hF b (List.mem_cons_of_mem a hb)
      by_cases hka : k = a
      · subst hka
        exact ih (dinsert k rec m) out hF'
          (Or.inl ⟨rec, lookup_dinsert_self k rec m,
            hF k (List.mem_cons_self k as) rec hFa⟩) h
      · rcases h0 with ⟨v, hv, hφ⟩ | hkmem
        · refine ih (dinsert a rec m) out hF' (Or.inl ⟨v, ?_, hφ⟩) h
          rw [lookup_dinsert_ne k a rec m hka]
          exact hv
        · rcases List.mem_cons.mp hkmem with h' | h'
          · exact absurd h' hka
          · exact ih (dinsert a rec m) out hF' (Or.inr h') h

theorem dinsert_noData_shape' (k a' v' : String) (m : List (String × Record))
    (hm : ∃ v, List.lookup k m = some v ∧ noDataShape v) :
    ∃ v, List.lookup k (dinsert a' (noDataRecord v') m) = some v ∧ noDataShape v := by
  by_cases hak : a' = k
  · subst hak
    exact ⟨noDataRecord v', lookup_dinsert_self _ _ m, noDataShape_noDataRecord v'⟩
  · obtain ⟨v, hv, hs⟩ := hm
    refine ⟨v, ?_, hs⟩
    rw [lookup_dinsert_ne k a' (noDataRecord v') m (fun he => hak he.symm)]
    exact hv

theorem rosterStep_shape (rows : List Row) (m : List (String × Record))
    (a' v' k : String)
    (hnoid : ∀ r ∈ rows, r.identifier ≠ k)
    (hm : ∃ v, List.lookup k m = some v ∧ noDataShape v)
    (out : List (String × Record))
    (hstep : rosterStep rows m a' v' = some out) :
    ∃ v, List.lookup k out = some v ∧ noDataShape v := by
  rw [rosterStep] at hstep
  by_cases h0 : rows = []
  · rw [if_pos h0] at hstep
    rw [← Option.some.inj hstep]
    exact dinsert_noData_shape' k a' v' m hm
  · rw [if_neg h0] at hstep
    by_cases hg : rows.filter (fun r => r.accountNormalized = a') = []
    · rw [if_pos hg] at hstep
      rw [← Option.some.inj hstep]
      exact dinsert_noData_shape' k a' v' m hm
    · rw [if_neg hg] at hstep
      have hkni : k ∉ uniquesFirst
          ((rows.filter (fun r => r.accountNormalized = a')).map (·.identifier)) := by
        intro hk
        obtain ⟨r, hrf, hrid⟩ := List.mem_map.mp ((uniquesFirst_mem _ _).mp hk)
        exact hnoid r (List.mem_filter.mp hrf).1 hrid
      obtain ⟨v, hv, hs⟩ := hm
      refine ⟨v, ?_, hs⟩
      rw [lookup_foldO_not_mem _ _ k m out hkni hstep]
      exact hv

theorem rosterStep_data (rows : List Row) (m : List (String × Record))
    (a' v' k : String)
    (hga : a' = k → rows.filter (fun r => r.accountNormalized = a') ≠ [])
    (hm : ∃ v, List.lookup k m = some v ∧ v.hasData = true)
    (out : List (String × Record))
    (hstep : rosterStep rows m a' v' = some out) :
    ∃ v, List.lookup k out = some v ∧ v.hasData = true := by
  rw [rosterStep] at hstep
  by_cases h0 : rows = []
  · rw [if_pos h0] at hstep
    have hak : a' ≠ k := fun he => hga he (by rw [h0]; rfl)
    obtain ⟨v, hv, hd⟩ := hm
    refine ⟨v, ?_, hd⟩
    rw [← Option.some.inj hstep,
      lookup_dinsert_ne k a' (noDataRecord v') m (fun he => hak he.symm)]
    exact hv
  · rw [if_neg h0] at hstep
    by_cases hg : rows.filter (fun r => r.accountNormalized = a') = []
    · rw [if_pos hg] at hstep
      have hak : a' ≠ k := fun he => hga he hg
      obtain ⟨v, hv, hd⟩ := hm
      refine ⟨v, ?_, hd⟩
      rw [← Option.some.inj hstep,
        lookup_dinsert_ne k a' (noDataRecord v') m (fun he => hak he.symm)]
      exact hv
    · rw [if_neg hg] at hstep
      refine foldO_holds (fun v => v.hasData = true) _ _ k m out ?_ (Or.inl hm) hstep
      intro aid ha rec hrec
      exact processGroup_hasData a' v' _ rec hrec

theorem addOthers_shape (rows : List Row) (k : String)
    (hnoid : ∀ r ∈ rows, r.identifier ≠ k)
    (m out : List (String × Record))
    (hm : ∃ v, List.lookup k m = some v ∧ noDataShape v)
    (h : addOthers rows m = some out) :
    ∃ v, List.lookup k out = some v ∧ noDataShape v := by
  rw [addOthers] at h
  by_cases h0 : rows = []
  · rw [if_pos h0] at h
    rw [← Option.some.inj h]
    exact hm
  · rw [if_neg h0] at h
    have hkni : k ∉ uniquesFirst
        ((rows.filter (fun r => r.vertical = "Other")).map (·.identifier)) := by
      intro hk
      obtain ⟨r, hrf, hrid⟩ := List.mem_map.mp ((uniquesFirst_mem _ _).mp hk)
      exact hnoid r (List.mem_filter.mp hrf).1 hrid
    obtain ⟨v, hv, hs⟩ := hm
    refine ⟨v, ?_, hs⟩
    rw [lookup_foldO_not_mem _ _ k m out hkni h]
    exact hv

theorem addOthers_data (rows : List Row) (k : String)
    (m out : List (String × Record))
    (hm : ∃ v, List.lookup k m = some v ∧ v.hasData = true)
    (h : addOthers rows m = some out) :
    ∃ v, List.lookup k out = some v ∧ v.hasData = true := by
  rw [addOthers] at h
  by_cases h0 : rows = []
  · rw [if_pos h0] at h
    rw [← Option.some.inj h]
    exact hm
  · rw [if_neg h0] at h
    refine foldO_holds (fun v => v.hasData = true) _ _ k m out ?_ (Or.inl hm) h
    intro aid ha rec hrec
    exact buildOtherRecord_hasData _ rec hrec

theorem steps_shape (rows : List Row) (k : String)
    (hnoid : ∀ r ∈ rows, r.identifier ≠ k)
    (L : List (String × String)) :
    ∀ (m out : List (String × Record)),
      (∃ v, List.lookup k m = some v ∧ noDataShape v) →
      L.foldl (fun om p => om.bind (fun m' => rosterStep rows m' p.1 p.2)) (some m)
        = some out →
      ∃ v, List.lookup k out = some v ∧ noDataShape v := by
  induction L with
  | nil =>
    intro m out hm h
    rw [List.foldl_nil] at h
    rw [← Option.some.inj h]
    exact hm
  | cons p ps ih =>
    intro m out hm h
    rw [List.foldl_cons] at h
    cases hstep : rosterStep rows m p.1 p.2 with
    | none =>
      simp only [Option.some_bind, hstep] at h
      exact Option.noConfusion ((rosterFold_none rows ps).symm.trans h)
    | some m' =>
      simp only [Option.some_bind, hstep] at h
      exact ih m' out (rosterStep_shape rows m p.1 p.2 k hnoid hm m' hstep) h

theorem steps_data (rows : List Row) (k : String)
    (L : List (String × String)) :
    ∀ (m out : List (String × Record)),
      (∀ p ∈ L, p.1 = k → rows.filter (fun r => r.accountNormalized = p.1) ≠ []) →
      (∃ v, List.lookup k m = some v ∧ v.hasData = true) →
      L.foldl (fun om p => om.bind (fun m' => rosterStep rows m' p.1 p.2)) (some m)
        = some out →
      ∃ v, List.lookup k out = some v ∧ v.hasData = true := by
  induction L with
  | nil =>
    intro m out _ hm h
    rw [List.foldl_nil] at h
    rw [← Option.some.inj h]
    exact hm
  | cons p ps ih =>
    intro m out hL hm h
    rw [List.foldl_cons] at h
    cases hstep : rosterStep rows m p.1 p.2 with
    | none =>
      simp only [Option.some_bind, hstep] at h
      exact Option.noConfusion ((rosterFold_none rows ps).symm.trans h)
    | some m' =>
      simp only [Option.some_bind, hstep] at h
      exact ih m' out (fun q hq hqk => hL q (List.mem_cons_of_mem p hq) hqk)
        (rosterStep_data rows m p.1 p.2 k
          (fun he => hL p (List.mem_cons_self p ps) he) hm m' hstep) h

/-- Claim C2, corrected: whenever the aggregation completes (it errors when
a group's completion dates are all missing), the catalog is total over the
roster, provided no processed row's composite account identifier collides
with the name of a roster account other than its own (hypothesis `Hcoll`;
the shape of identifiers, hypothesis `Hid`, is what `processData` always
produces). For every roster account there is then a key resolving to it
whose record is the bare "no data" record exactly when no processed row
resolved to the account. -/
theorem catalog_totality_amended (rows : List Row)
    (Hid : ∀ r ∈ rows, r.identifier = r.accountNormalized ∨
      ∃ s, s ≠ "" ∧ r.identifier = r.accountNormalized ++ " (" ++ s ++ ")")
    (Hcoll : ∀ r ∈ rows, r.identifier ∈ rosterNames →
      r.accountNormalized = r.identifier)
    (account vert : String) (hmem : (account, vert) ∈ account_to_vertical)
    (out : List (String × Record))
    (hout : getAllAccountsWithData rows = some out) :
    ∃ k v, resolvesTo k account ∧
      List.lookup k out = some v ∧
      (noDataShape v ↔ ∀ r ∈ rows, r.accountNormalized ≠ account) := by
  obtain ⟨L₁, L₂, hsplit⟩ := List.append_of_mem hmem
  have haccr : account ∈ rosterNames := List.mem_map_of_mem (fun p => p.1) hmem
  rw [getAllAccountsWithData, hsplit] at hout
  simp only [List.foldl_append, List.foldl_cons] at hout
  obtain ⟨mR, hmR, hao⟩ := Option.bind_eq_some.mp hout
  obtain ⟨mAcc, hinner⟩ := rosterFold_eq_some rows L₂ _ mR hmR
  rw [hinner] at hmR
  obtain ⟨m₁, hm₁, hstepAcc₀⟩ := Option.bind_eq_some.mp hinner
  have hstepAcc : rosterStep rows m₁ account vert = some mAcc := hstepAcc₀
  by_cases hcase : ∀ r ∈ rows, r.accountNormalized ≠ account
  · have hnoid : ∀ r ∈ rows, r.identifier ≠ account := by
      intro r hrr hid
      have hn := Hcoll r hrr (by rw [hid]; exact haccr)
      exact hcase r hrr (hn.trans hid)
    have hm₂ : ∃ v, List.lookup account mAcc = some v ∧ noDataShape v := by
      rw [rosterStep] at hstepAcc
      by_cases h0 : rows = []
      · rw [if_pos h0] at hstepAcc
        rw [← Option.some.inj hstepAcc]
        exact ⟨_, lookup_dinsert_self account _ _, noDataShape_noDataRecord vert⟩
      · rw [if_neg h0] at hstepAcc
        have hg : rows.filter (fun r => r.accountNormalized = account) = [] := by
          apply List.filter_eq_nil_iff.mpr
          intro r hrr
          simp [hcase r hrr]
        rw [if_pos hg] at hstepAcc
        rw [← Option.some.inj hstepAcc]
        exact ⟨_, lookup_dinsert_self account _ _, noDataShape_noDataRecord vert⟩
    have hmid := steps_shape rows account hnoid L₂ mAcc mR hm₂ hmR
    have hfin := addOthers_shape rows account hnoid mR out hmid hao
    obtain ⟨v, hv, hs⟩ := hfin
    exact ⟨account, v, Or.inl rfl, hv, ⟨fun _ => hcase, fun _ => hs⟩⟩
  · push_neg at hcase
    obtain ⟨r₀, hr₀mem, hr₀⟩ := hcase
    have hres : resolvesTo r₀.identifier account := by
      rcases Hid r₀ hr₀mem with h | ⟨s, hs, he⟩
      · exact Or.inl (h.trans hr₀)
      · exact Or.inr ⟨s, hs, by rw [he, hr₀]⟩
    have hrowsne : rows ≠ [] := List.ne_nil_of_mem hr₀mem
    have hginc : r₀ ∈ rows.filter (fun r => r.accountNormalized = account) :=
      List.mem_filter.mpr ⟨hr₀mem, by simp [hr₀]⟩
    have hgne : rows.filter (fun r => r.accountNormalized = account) ≠ [] :=
      List.ne_nil_of_mem hginc
    rw [rosterStep, if_neg hrowsne, if_neg hgne] at hstepAcc
    have hm₂ : ∃ v, List.lookup r₀.identifier mAcc = some v ∧ v.hasData = true := by
      refine foldO_holds (fun v => v.hasData = true) _ _ r₀.identifier m₁ mAcc ?_
        (Or.inr ((uniquesFirst_mem _ _).mpr (List.mem_map.mpr ⟨r₀, hginc, rfl⟩)))
        hstepAcc
      intro aid ha rec hrec
      exact processGroup_hasData account vert _ rec hrec
    have hL₂ : ∀ p ∈ L₂, p.1 = r₀.identifier →
        rows.filter (fun r => r.accountNormalized = p.1) ≠ [] := by
      intro p hp hpk
      have hpro : p ∈ account_to_vertical := by
        rw [hsplit]
        exact List.mem_append.mpr (Or.inr (List.mem_cons_of_mem _ hp))
      have hkros : r₀.identifier ∈ rosterNames := by
        rw [← hpk]
        exact List.mem_map_of_mem (fun q => q.1) hpro
      have hnorm := Hcoll r₀ hr₀mem hkros
      apply List.ne_nil_of_mem (a := r₀)
      exact List.mem_filter.mpr ⟨hr₀mem, by simp [hnorm.trans hpk.symm]⟩
    have hmid := steps_data rows r₀.identifier L₂ mAcc mR hL₂ hm₂ hmR
    have hfin := addOthers_data rows r₀.identifier mR out hmid hao
    obtain ⟨v, hv, hd⟩ := hfin
    refine ⟨r₀.identifier, v, hres, hv, ?_⟩
    constructor
    · intro hsh
      have hcontra := hsh.1
      rw [hd] at hcontra
      cases hcontra
    · intro hall
      exact absurd hr₀ (hall r₀ hr₀mem)

/-- Witness for `catalog_totality_amended`: the empty processed-row list
(on which the aggregation completes) and the first roster account. -/
theorem catalog_totality_amended_witness :
    (∀ r ∈ ([] : List Row), r.identifier = r.accountNormalized ∨
      ∃ s, s ≠ "" ∧ r.identifier = r.accountNormalized ++ " (" ++ s ++ ")") ∧
    (∀ r ∈ ([] : List Row), r.identifier ∈ rosterNames →
      r.accountNormalized = r.identifier) ∧
    (("Delta Air Lines", "Aviation") ∈ account_to_vertical) ∧
    getAllAccountsWithData ([] : List Row)
      = some ((getAllAccountsWithData ([] : List Row)).getD []) ∧
    (∃ k v, resolvesTo k "Delta Air Lines" ∧
      List.lookup k ((getAllAccountsWithData ([] : List Row)).getD []) = some v ∧
      (noDataShape v ↔ ∀ r ∈ ([] : List Row),
        r.accountNormalized ≠ "Delta Air Lines")) :=
  ⟨fun r hr => absurd hr (List.not_mem_nil r),
    fun r hr => absurd hr (List.not_mem_nil r),
    by decide,
    by rfl,
    catalog_totality_amended [] (fun r hr => absurd hr (List.not_mem_nil r))
      (fun r hr => absurd hr (List.not_mem_nil r)) "Delta Air Lines" "Aviation"
      (by decide) ((getAllAccountsWithData ([] : List Row)).getD []) (by rfl)⟩

/-- String equality follows from equality of the character lists. -/
theorem string_data_inj {x y : String} (h : x.data = y.data) : x = y := by
  cases x
  cases y
  exact congrArg String.mk h

/-- `String.append` on the character lists. -/
theorem string_append_data (x y : String) : (x ++ y).data = x.data ++ y.data := by
  cases x
  cases y
  rfl

theorem eatLit_append (p t : List Char) : eatLit p (p ++ t) = some t := by
  induction p with
  | nil => rfl
  | cons c cs ih =>
    show eatLit (c :: cs) (c :: (cs ++ t)) = some t
    rw [eatLit, if_pos rfl]
    exact ih

theorem eatLit_eq_append (p : List Char) :
    ∀ l r : List Char, eatLit p l = some r → l = p ++ r := by
  induction p with
  | nil =>
    intro l r h
    rw [eatLit] at h
    exact Option.some.inj h
  | cons c cs ih =>
    intro l r h
    cases l with
    | nil => cases h
    | cons d ds =>
      rw [eatLit] at h
      by_cases hcd : c = d
      · rw [if_pos hcd] at h
        rw [List.cons_append, ← hcd, ih ds r h]
      · rw [if_neg hcd] at h
        cases h

/-- Executable test for `resolvesTo`. -/
def resolvesToB (k a : String) : Bool :=
  k == a ||
  (match eatLit (a.data ++ [' ', '(']) k.data with
   | some rest =>
     match rest.getLast? with
     | some c => (c == ')') && decide (2 ≤ rest.length)
     | none => false
   | none => false)

theorem string_ne_empty_of_data {s : String} (h : s.data ≠ []) : s ≠ "" := by
  intro he
  rw [he] at h
  exact h rfl

theorem resolvesTo_iff (k a : String) : resolvesTo k a ↔ resolvesToB k a = true := by
  constructor
  · rintro (rfl | ⟨s, hs, rfl⟩)
    · rw [resolvesToB]
      simp
    · have hdata : (a ++ " (" ++ s ++ ")").data
          = (a.data ++ [' ', '(']) ++ (s.data ++ [')']) := by
        rw [string_append_data, string_append_data, string_append_data]
        simp
      have hlast : (s.data ++ [')']).getLast? = some ')' := List.getLast?_concat _
      have hsd : s.data ≠ [] := by
        intro hsd
        exact hs (string_data_inj (by rw [hsd]))
      have hlen : 2 ≤ (s.data ++ [')']).length := by
        rw [List.length_append]
        cases hw : s.data with
        | nil => exact absurd hw hsd
        | cons x xs => simp
      have hpos : 1 ≤ s.length := List.length_pos.mpr hsd
      simp only [resolvesToB, hdata, eatLit_append, hlast]
      simp [hlen, hpos]
  · intro hb
    rw [resolvesToB] at hb
    rcases Bool.or_eq_true _ _ |>.mp hb with h | h
    · exact Or.inl (eq_of_beq h)
    · cases he : eatLit (a.data ++ [' ', '(']) k.data with
      | none =>
        simp only [he] at h
        exact Bool.noConfusion h
      | some rest =>
        simp only [he] at h
        cases hlast : rest.getLast? with
        | none =>
          simp only [hlast] at h
          exact Bool.noConfusion h
        | some c =>
          simp only [hlast] at h
          obtain ⟨hc, hlen⟩ := Bool.and_eq_true _ _ |>.mp h
          have hc' : c = ')' := eq_of_beq hc
          have hlen' : 2 ≤ rest.length := of_decide_eq_true hlen
          have hrne : rest ≠ [] := by
            intro hx
            rw [hx] at hlast
            cases hlast
          have hgl : rest.getLast hrne = c := by
            have h2 := List.getLast?_eq_getLast rest hrne
            rw [h2] at hlast
            exact Option.some.inj hlast
          have hrest : rest.dropLast ++ [')'] = rest := by
            rw [← hc', ← hgl]
            exact List.dropLast_append_getLast hrne
          have hdl : rest.dropLast ≠ [] := by
            intro hx
            have hlc := congrArg List.length hrest
            rw [hx] at hlc
            simp at hlc
            omega
          refine Or.inr ⟨⟨rest.dropLast⟩, ?_, ?_⟩
          · exact string_ne_empty_of_data hdl
          · apply string_data_inj
            rw [string_append_data, string_append_data, string_append_data]
            rw [eatLit_eq_append _ _ _ he, ← hrest]
            simp

theorem lookup_some_mem {k : String} {v : Record} :
    ∀ {l : List (String × Record)}, List.lookup k l = some v → (k, v) ∈ l := by
  intro l
  induction l with
  | nil => intro h; cases h
  | cons p rest ih =>
    intro h
    rw [List.lookup] at h
    cases hpk : k == p.1 with
    | true =>
      rw [hpk] at h
      simp only [] at h
      injection h with h'
      have : p = (k, v) := by
        have h1 : k = p.1 := eq_of_beq hpk
        cases p
        simp_all
      rw [this] at *
      exact List.mem_cons_self _ _
    | false =>
      rw [hpk] at h
      simp only [] at h
      exact List.mem_cons_of_mem p (ih h)

/-- The date parser for the C2 counterexample pipeline. -/
def c2ParseDate : String → Option ℤ := fun s => if s = "d1" then some 100 else none

/-- A December raw row whose account label "Detroit Diesel" is outside
the roster and whose IFM field is "DDC", so its composite identifier
"Detroit Diesel (DDC)" collides with the roster account of that exact
name. -/
def c2Raw : RawRow :=
  { idNum := some 70, nameNew := some "Detroit Diesel",
    completionTime := some "d1", whoIsYourFM := some "DDC" }

/-- The processed rows of the C2 counterexample. -/
def c2Rows : List Row := processData true c2ParseDate [c2Raw]

/-- Counterexample to claim C2 as stated: with `c2Rows` loaded, the
aggregation completes, no processed row resolves to the roster account
"Detroit Diesel (DDC)", yet every key of the output that resolves to
that account holds a data-bearing record — the trailing `Other`-vertical
pass overwrites the account's "no data" record under the colliding key —
so there is no key resolving to the account whose record satisfies the
claim's has-data-iff condition. -/
theorem catalog_totality_counterexample :
    (getAllAccountsWithData c2Rows).isSome = true ∧
    ¬ ∃ out k v, getAllAccountsWithData c2Rows = some out ∧
      resolvesTo k "Detroit Diesel (DDC)" ∧
      List.lookup k out = some v ∧
      (noDataShape v ↔ ∀ r ∈ c2Rows,
        r.accountNormalized ≠ "Detroit Diesel (DDC)") := by
  refine ⟨by decide, ?_⟩
  rintro ⟨out, k, v, hsome, hres, hlook, hiff⟩
  have hno : ∀ r ∈ c2Rows, r.accountNormalized ≠ "Detroit Diesel (DDC)" := by decide
  have hshape := hiff.mpr hno
  have hb := (resolvesTo_iff k "Detroit Diesel (DDC)").mp hres
  have hkey : ∀ p ∈ (getAllAccountsWithData c2Rows).getD [],
      resolvesToB p.1 "Detroit Diesel (DDC)" = true → p.2.hasData = true := by decide
  have hmem : (k, v) ∈ (getAllAccountsWithData c2Rows).getD [] := by
    rw [hsome]
    exact lookup_some_mem hlook
  have hd := hkey (k, v) hmem hb
  have hcontra := hshape.1
  rw [hd] at hcontra
  cases hcontra

end Dashboard
